import Mathlib

/-!
# Verification of the radicale-sql storage backend (src/radicale_sql)

A shallow embedding, in Lean 4, of the parts of `src/radicale_sql/__init__.py`
and `src/radicale_sql/db.py` that the frozen claims are about:

* the SHA-256 digest (the code derives item etags, history etags and sync
  token suffixes from `hashlib.sha256` / `radicale.item.get_etag`);
* `Collection._update_history_etag` (the version tracker);
* `Collection._upload`, `Collection._delete` (item CRUD as far as the history
  chain is concerned);
* `Collection._get_deleted_history_refs` (tombstone detection) and the column
  set of the `cas.item_history` table from `db.py`;
* `Collection._sync` (the sync engine: token parsing, state enumeration,
  token computation, snapshot storage, diffing);
* `Storage._create_collection` and `Storage._split_path` (path-walking
  collection creation), together with Python's `uuid.UUID` string validation
  used by `is_valid_uuid`.

Database tables are modelled as in-memory lists of rows; a SQL transaction
becomes a pure function from the old table contents to the new ones, and a
raised Python exception becomes `Except.error`.  `os.urandom` / `uuid.uuid4`
draws are modelled by explicit seed parameters.
-/

set_option maxRecDepth 100000

namespace RadicaleSql

instance {ε α : Type} [DecidableEq ε] [DecidableEq α] : DecidableEq (Except ε α) := fun
  | .error a, .error b =>
    if h : a = b then isTrue (by rw [h]) else isFalse (by simp [h])
  | .error _, .ok _ => isFalse (by simp)
  | .ok _, .error _ => isFalse (by simp)
  | .ok a, .ok b =>
    if h : a = b then isTrue (by rw [h]) else isFalse (by simp [h])

/-! ## SHA-256, from `hashlib.sha256`

Bytes are `Nat`s below 256; 32-bit words are `Nat`s reduced modulo `2^32`
wherever overflow can occur. -/

def w32 : Nat := 4294967296

def add32 (a b : Nat) : Nat := (a + b) % w32

def rotr32 (n x : Nat) : Nat := ((x >>> n) ||| (x <<< (32 - n))) % w32

def bigSigma0 (x : Nat) : Nat := rotr32 2 x ^^^ rotr32 13 x ^^^ rotr32 22 x

def bigSigma1 (x : Nat) : Nat := rotr32 6 x ^^^ rotr32 11 x ^^^ rotr32 25 x

def smallSigma0 (x : Nat) : Nat := rotr32 7 x ^^^ rotr32 18 x ^^^ (x >>> 3)

def smallSigma1 (x : Nat) : Nat := rotr32 17 x ^^^ rotr32 19 x ^^^ (x >>> 10)

def chooseF (x y z : Nat) : Nat := (x &&& y) ^^^ ((x ^^^ (w32 - 1)) &&& z)

def majF (x y z : Nat) : Nat := (x &&& y) ^^^ (x &&& z) ^^^ (y &&& z)

def sha256K : List Nat :=
  [1116352408, 1899447441, 3049323471, 3921009573, 961987163, 1508970993,
   2453635748, 2870763221, 3624381080, 310598401, 607225278, 1426881987,
   1925078388, 2162078206, 2614888103, 3248222580, 3835390401, 4022224774,
   264347078, 604807628, 770255983, 1249150122, 1555081692, 1996064986,
   2554220882, 2821834349, 2952996808, 3210313671, 3336571891, 3584528711,
   113926993, 338241895, 666307205, 773529912, 1294757372, 1396182291,
   1695183700, 1986661051, 2177026350, 2456956037, 2730485921, 2820302411,
   3259730800, 3345764771, 3516065817, 3600352804, 4094571909, 275423344,
   430227734, 506948616, 659060556, 883997877, 958139571, 1322822218,
   1537002063, 1747873779, 1955562222, 2024104815, 2227730452, 2361852424,
   2428436474, 2756734187, 3204031479, 3329325298]

def sha256H0 : List Nat :=
  [1779033703, 3144134277, 1013904242, 2773480762,
   1359893119, 2600822924, 528734635, 1541459225]

/-- `k` bytes of `n`, big-endian. -/
def natToBytesBE (k n : Nat) : List Nat :=
  (List.range k).map (fun i => (n >>> (8 * (k - 1 - i))) % 256)

/-- SHA-256 padding: append `0x80`, zeros, and the 64-bit big-endian bit
length, to a multiple of 64 bytes. -/
def sha256Pad (msg : List Nat) : List Nat :=
  let len := msg.length
  let padZeros := (119 - len % 64) % 64
  msg ++ [0x80] ++ List.replicate padZeros 0 ++ natToBytesBE 8 (len * 8)

/-- The 16 initial 32-bit words of one 64-byte block. -/
def blockWords (block : List Nat) : List Nat :=
  (List.range 16).map (fun i =>
    (block.getD (4 * i) 0) <<< 24 + (block.getD (4 * i + 1) 0) <<< 16 +
    (block.getD (4 * i + 2) 0) <<< 8 + block.getD (4 * i + 3) 0)

/-- Message schedule: extend 16 words to 64. -/
def msgSchedule (w16 : List Nat) : List Nat :=
  (List.range 48).foldl
    (fun w _ =>
      let i := w.length
      w ++ [add32 (add32 (smallSigma1 (w.getD (i - 2) 0)) (w.getD (i - 7) 0))
                  (add32 (smallSigma0 (w.getD (i - 15) 0)) (w.getD (i - 16) 0))])
    w16

def sha256Compress (h : List Nat) (block : List Nat) : List Nat :=
  let ws := msgSchedule (blockWords block)
  let step := fun (st : Nat × Nat × Nat × Nat × Nat × Nat × Nat × Nat) (kw : Nat × Nat) =>
    let (a, b, c, d, e, f, g, hh) := st
    let t1 := add32 (add32 (add32 hh (bigSigma1 e)) (add32 (chooseF e f g) kw.1)) kw.2
    let t2 := add32 (bigSigma0 a) (majF a b c)
    (add32 t1 t2, a, b, c, add32 d t1, e, f, g)
  let init := (h.getD 0 0, h.getD 1 0, h.getD 2 0, h.getD 3 0,
               h.getD 4 0, h.getD 5 0, h.getD 6 0, h.getD 7 0)
  let fin := (sha256K.zip ws).foldl step init
  [add32 (h.getD 0 0) fin.1, add32 (h.getD 1 0) fin.2.1,
   add32 (h.getD 2 0) fin.2.2.1, add32 (h.getD 3 0) fin.2.2.2.1,
   add32 (h.getD 4 0) fin.2.2.2.2.1, add32 (h.getD 5 0) fin.2.2.2.2.2.1,
   add32 (h.getD 6 0) fin.2.2.2.2.2.2.1, add32 (h.getD 7 0) fin.2.2.2.2.2.2.2]

/-- Split into 64-byte blocks (fuel-based structural recursion). -/
def chunks64 : Nat → List Nat → List (List Nat)
  | 0, _ => []
  | _ + 1, [] => []
  | fuel + 1, l => l.take 64 :: chunks64 fuel (l.drop 64)

/-- The 32 digest bytes of a byte string. -/
def sha256Bytes (msg : List Nat) : List Nat :=
  let padded := sha256Pad msg
  let hs := (chunks64 padded.length padded).foldl sha256Compress sha256H0
  hs.foldr (fun w acc => natToBytesBE 4 w ++ acc) []

def hexChars : List Char :=
  "0123456789abcdef".toList

def bytesToHex (bs : List Nat) : String :=
  String.mk (bs.flatMap (fun b => [hexChars.getD (b / 16 % 16) '0', hexChars.getD (b % 16) '0']))

/-- UTF-8 encoding of one character (Python `str.encode()`). -/
def utf8Char (c : Char) : List Nat :=
  let n := c.toNat
  if n < 0x80 then [n]
  else if n < 0x800 then [0xC0 ||| (n >>> 6), 0x80 ||| (n &&& 0x3F)]
  else if n < 0x10000 then
    [0xE0 ||| (n >>> 12), 0x80 ||| ((n >>> 6) &&& 0x3F), 0x80 ||| (n &&& 0x3F)]
  else
    [0xF0 ||| (n >>> 18), 0x80 ||| ((n >>> 12) &&& 0x3F),
     0x80 ||| ((n >>> 6) &&& 0x3F), 0x80 ||| (n &&& 0x3F)]

def utf8Encode (s : String) : List Nat := s.toList.flatMap utf8Char

/-- `hashlib.sha256(bytes).hexdigest()`. -/
def sha256HexBytes (msg : List Nat) : String := bytesToHex (sha256Bytes msg)

/-- `hashlib.sha256(s.encode()).hexdigest()`. -/
def sha256HexStr (s : String) : String := sha256HexBytes (utf8Encode s)

/-! ## Python string helpers -/

/-- Python `s.strip(chars)`: remove any run of the given characters from both
ends of the string. -/
def pyStripChars (cs : List Char) (s : String) : String :=
  String.mk (((s.toList.dropWhile cs.contains).reverse.dropWhile cs.contains).reverse)

/-- Python `s.startswith(pre)`: character-wise prefix test. -/
def pyStartsWith (s pre : String) : Bool :=
  s.toList.take pre.toList.length == pre.toList

/-- Python `s.endswith(suf)`: character-wise suffix test. -/
def pyEndsWith (s suf : String) : Bool :=
  suf.toList.isSuffixOf s.toList

/-- Python `s[n:]`: drop the first `n` characters. -/
def pySlice (s : String) (n : Nat) : String :=
  String.mk (s.toList.drop n)

/-- Python `s[:n]`: the first `n` characters. -/
def pyTake (s : String) (n : Nat) : String :=
  String.mk (s.toList.take n)

/-- The characters before the first occurrence of (non-empty) `sep`, or all of
them when `sep` does not occur. -/
def splitFirstAux (sep : List Char) : List Char → List Char
  | [] => []
  | c :: cs => if sep.isPrefixOf (c :: cs) then [] else c :: splitFirstAux sep cs

/-- Python `s.split(sep)[0]` for a non-empty separator. -/
def pySplitFirst (s sep : String) : String :=
  String.mk (splitFirstAux sep.toList s.toList)

/-- One fuel-indexed step list of Python `s.replace(pat, rep)`: replace every
non-overlapping occurrence, scanning left to right. -/
def replaceFuel : Nat → List Char → List Char → List Char → List Char
  | 0, l, _, _ => l
  | fuel + 1, l, pat, rep =>
    match l with
    | [] => []
    | c :: cs =>
      if pat.isPrefixOf (c :: cs) then
        rep ++ replaceFuel fuel ((c :: cs).drop pat.length) pat rep
      else c :: replaceFuel fuel cs pat rep

/-- Python `s.replace(pat, rep)` for a non-empty pattern. -/
def pyReplace (s pat rep : String) : String :=
  String.mk (replaceFuel s.toList.length s.toList pat.toList rep.toList)

/-- Fuel-indexed worker for Python `s.split(sep)`: `acc` is the field being
read. -/
def splitAllAux : Nat → List Char → List Char → List Char → List (List Char)
  | 0, l, _, acc => [acc ++ l]
  | fuel + 1, l, sep, acc =>
    match l with
    | [] => [acc]
    | c :: cs =>
      if sep.isPrefixOf (c :: cs) then
        acc :: splitAllAux fuel ((c :: cs).drop sep.length) sep []
      else splitAllAux fuel cs sep (acc ++ [c])

/-- Python `s.split(sep)` for a non-empty separator (keeps empty fields). -/
def pySplitAll (s sep : String) : List String :=
  (splitAllAux s.toList.length s.toList sep.toList []).map String.mk

/-- ASCII whitespace as stripped by Python `int(...)` conversion (the full
Python rule also strips some non-ASCII spaces; the strings in this code base
are ASCII). -/
def isPySpace (c : Char) : Bool :=
  c == ' ' || c == '\t' || c == '\n' || c == '\r' || c == '\x0b' || c == '\x0c'

def isPyHexDigit (c : Char) : Bool :=
  ("0123456789abcdefABCDEF".toList).contains c

/-- A run of hex digits with single underscores allowed between digits;
`prevDigit` records whether the previous character was a digit. -/
def hexRun : List Char → Bool → Bool
  | [], prevDigit => prevDigit
  | c :: cs, prevDigit =>
    if c == '_' then prevDigit && hexRun cs false
    else isPyHexDigit c && hexRun cs true

/-- Whether Python `int(s, 16)` succeeds: optional surrounding whitespace,
optional sign, optional `0x`/`0X` prefix (with one optional underscore after
it), then hex digits separated by single underscores. -/
def pyIntHexOk (s : String) : Bool :=
  let cs := s.toList.dropWhile isPySpace
  let cs := (cs.reverse.dropWhile isPySpace).reverse
  let cs := match cs with
    | c :: rest => if c == '+' || c == '-' then rest else c :: rest
    | [] => []
  match cs with
  | '0' :: 'x' :: rest =>
      (match rest with
       | '_' :: rest2 => hexRun rest2 false
       | _ => hexRun rest false)
  | '0' :: 'X' :: rest =>
      (match rest with
       | '_' :: rest2 => hexRun rest2 false
       | _ => hexRun rest false)
  | _ => hexRun cs false

/-! ## `uuid.UUID(str)` validation and rendering

`is_valid_uuid(val)` in `__init__.py` is `uuid.UUID(str(val))` guarded by
`except ValueError`.  CPython's `UUID.__init__(hex=...)` does
`hex.replace('urn:', '').replace('uuid:', '').strip('{}').replace('-', '')`,
requires the result to be exactly 32 characters, and parses it with
`int(hex, 16)`. -/

def uuidClean (s : String) : String :=
  pyReplace (pyStripChars ['\x7b', '\x7d'] (pyReplace (pyReplace s "urn:" "") "uuid:" ""))
    "-" ""

/-- `is_valid_uuid` from `__init__.py`. -/
def is_valid_uuid (val : String) : Bool :=
  let hex := uuidClean val
  hex.length == 32 && pyIntHexOk hex

/-- Numeric value of a hex-digit character (0 for anything else; only applied
after validation). -/
def hexVal (c : Char) : Nat :=
  match ("0123456789abcdef".toList).indexOf c.toLower with
  | i => if i < 16 then i else 0

/-- Value of Python `int(s, 16)` on a validated non-negative input. -/
def intHexVal (s : String) : Nat :=
  let cs := s.toList.dropWhile isPySpace
  let cs := (cs.reverse.dropWhile isPySpace).reverse
  let cs := match cs with
    | '+' :: rest => rest
    | l => l
  let cs := match cs with
    | '0' :: 'x' :: rest => rest
    | '0' :: 'X' :: rest => rest
    | l => l
  cs.foldl (fun acc c => if c == '_' then acc else acc * 16 + hexVal c) 0

def natToHex (len n : Nat) : String :=
  String.mk ((List.range len).map (fun i => hexChars.getD (n >>> (4 * (len - 1 - i)) % 16) '0'))

/-- `str(uuid.UUID(s))`: the canonical lowercase 8-4-4-4-12 rendering of the
parsed 128-bit value. -/
def pyUUIDStr (s : String) : String :=
  let h := natToHex 32 (intHexVal (uuidClean s))
  pyTake h 8 ++ "-" ++ pyTake (pySlice h 8) 4 ++ "-" ++ pyTake (pySlice h 12) 4 ++ "-" ++
    pyTake (pySlice h 16) 4 ++ "-" ++ pySlice h 20

/-! ## Etags, from `radicale.item.get_etag` -/

/-- `radicale.item.get_etag(text)`: the double-quoted SHA-256 hex digest of
the text.  An `Item`'s `etag` is `get_etag` of its serialized payload. -/
def get_etag (text : String) : String := "\"" ++ sha256HexStr text ++ "\""

/-! ## The state of one collection

One `Collection` object works on the rows of `cas.item`, `cas.item_history`
and `cas.collection_state` that carry its `collection_id`; those rows are the
three lists below, in database enumeration order.  Timestamps are epoch
milliseconds (`Nat`).  The denormalized vCard search columns of `cas.item`
(`full_name`, `phone_number`, ...) and the owning collection row's own
`modified_at` are not modelled: no claim reads them. -/

/-- A row of `cas.item` belonging to the collection. -/
structure ItemRow where
  id : String
  name : String
  data : String
  modified_at : Nat
deriving DecidableEq, Repr

/-- A row of `cas.item_history` belonging to the collection. -/
structure HistRow where
  name : String
  etag : String
  history_etag : String
  modified_at : Nat
deriving DecidableEq, Repr

/-- A row of `cas.collection_state`: the snapshot `name` (the token suffix)
and the stored `name -> history_etag` mapping.  The code stores the mapping
as `json.dumps(state).encode()` and reads it back with `json.loads`; that
round trip preserves a string-to-string dict (including its insertion order),
so the mapping is kept directly. -/
structure CollState where
  items : List ItemRow
  hist : List HistRow
  snapshots : List (String × List (String × String))
deriving DecidableEq, Repr

/-- Python `dict.get` over an insertion-ordered association list with unique
keys. -/
def dictGet (d : List (String × String)) (k : String) : Option String :=
  match d with
  | [] => none
  | p :: rest => if p.1 == k then some p.2 else dictGet rest k

/-- The unique-`(collection_id, name)` lookup behind
`_update_history_etag`'s `one_or_none()`. -/
def histFind (hist : List HistRow) (href : String) : Option HistRow :=
  hist.find? (fun r => r.name == href)

/-- `item.etag if item else ""` in `_update_history_etag`, where `item` is
the live item's serialized payload when there is one (an `Item`'s etag is
`get_etag` of its serialization). -/
def dataEtag (item : Option String) : String :=
  match item with | some payload => get_etag payload | none => ""

/-- `Collection._update_history_etag(href, item)`.  `item` is the live item's
serialized payload when there is one (its etag is `get_etag` of it, and absent
items stand for the empty etag); `freshSeed` models
`binascii.hexlify(os.urandom(16))`; `now` models the `modified_at` column
defaults.  Returns the history etag and the new table state. -/
def updateHistoryEtag (st : CollState) (href : String) (item : Option String)
    (freshSeed : String) (now : Nat) : String × CollState :=
  let found := histFind st.hist href
  let cache_etag := match found with | some r => r.etag | none => ""
  let history_etag := match found with | some r => r.history_etag | none => freshSeed
  let etag := dataEtag item
  if etag != cache_etag then
    let history_etag2 := pyStripChars ['"'] (get_etag (history_etag ++ "/" ++ etag))
    let hist2 :=
      if found.isSome then
        st.hist.map (fun r =>
          if r.name == href then
            { r with etag := etag, history_etag := history_etag2, modified_at := now }
          else r)
      else
        st.hist ++ [⟨href, etag, history_etag2, now⟩]
    (history_etag2, { st with hist := hist2 })
  else
    (history_etag, st)

/-- The href/identity derivation at the top of `Collection._upload`:
`.vcf`/`.ics` hrefs whose stem parses as a UUID keep the href and use that
UUID as item id; otherwise a fresh UUID (`freshId` models `str(uuid.uuid4())`)
is minted and the href rewritten; any other extension raises `ValueError`. -/
def uploadHref (href : String) (freshId : String) : Except String (String × String) :=
  if pyEndsWith href ".vcf" then
    let stem := pySplitFirst href ".vcf"
    if is_valid_uuid stem then .ok (pyUUIDStr stem, href)
    else .ok (freshId, freshId ++ ".vcf")
  else if pyEndsWith href ".ics" then
    let stem := pySplitFirst href ".ics"
    if is_valid_uuid stem then .ok (pyUUIDStr stem, href)
    else .ok (freshId, freshId ++ ".ics")
  else
    .error "Invalid file extension"

/-- `Collection._upload(href, item)`: derive the identity and effective href,
insert the item row or update the existing one (the data update is keyed on
`(collection_id, name, id)`, the `_item_updated` timestamp refresh on
`(collection_id, name)`), then advance the history etag.  Returns the
effective href and the new state. -/
def upload (st : CollState) (href : String) (payload : String)
    (freshId freshSeed : String) (now : Nat) : Except String (String × CollState) :=
  match uploadHref href freshId with
  | .error e => .error e
  | .ok (item_id, href2) =>
    let stItems :=
      match st.items.find? (fun it => it.name == href2) with
      | none => { st with items := st.items ++ [⟨item_id, href2, payload, now⟩] }
      | some _ =>
        { st with items := st.items.map (fun it =>
            if it.name == href2 then
              if it.id == item_id then { it with data := payload, modified_at := now }
              else { it with modified_at := now }
            else it) }
    let r := updateHistoryEtag stItems href2 (some payload) freshSeed now
    .ok (href2, r.2)

/-- `Collection._delete` with an href: `_item_updated`'s `.one()` requires the
item row to exist, then the row is deleted.  `_update_history_etag` is NOT
called here.  (Whole-collection deletion, `href=None`, is not modelled: no
claim needs it.) -/
def deleteItem (st : CollState) (href : String) : Option CollState :=
  match st.items.find? (fun it => it.name == href) with
  | some _ => some { st with items := st.items.filter (fun it => !(it.name == href)) }
  | none => none

/-- `Collection._get_deleted_history_refs`: names of `cas.item_history` rows
of this collection with no matching live `cas.item` row (the left join whose
right side is null). -/
def deletedHistoryRefs (st : CollState) : List String :=
  (st.hist.filter (fun r => st.items.all (fun it => !(it.name == r.name)))).map
    (fun r => r.name)

/-! ## `Collection._sync` -/

/-- The fixed token URI prefix of `_sync`. -/
def tokenPre : String := "http://radicale.org/ns/sync/"

/-- `check_token_name` inside `_sync`: 64 characters, all from
`string.hexdigits.lower()`. -/
def check_token_name (token_name : String) : Bool :=
  if token_name.length != 64 then false
  else token_name.toList.all (fun c => ("0123456789abcdefabcdef".toList).contains c)

/-- The `itertools.chain` in `_sync`: every live item (with its payload),
then every tombstoned name. -/
def enumeratePairs (st : CollState) : List (String × Option String) :=
  st.items.map (fun it => (it.name, some it.data)) ++
    (deletedHistoryRefs st).map (fun n => (n, none))

/-- The body of `_sync`'s enumeration loop: skip names already in `state`,
otherwise advance the history etag, record `state[href] = history_etag` and
feed `href + "/" + history_etag` to the running SHA-256 (`buf` is the bytes
fed so far; hashing a concatenation is what `hashlib`'s incremental `update`
computes). -/
def syncLoop (fresh : String → String) (now : Nat) :
    CollState → List (String × String) → List Nat → List (String × Option String) →
    List (String × String) × List Nat × CollState
  | st, state, buf, [] => (state, buf, st)
  | st, state, buf, (href, item) :: rest =>
    if (dictGet state href).isSome then
      syncLoop fresh now st state buf rest
    else
      let r := updateHistoryEtag st href item (fresh href) now
      syncLoop fresh now r.2 (state ++ [(href, r.1)])
        (buf ++ utf8Encode (href ++ "/" ++ r.1)) rest

/-- The new-state computation of `_sync`: the `state` mapping, the hashed
bytes, and the table state after the per-name history updates. -/
def syncNewState (st : CollState) (fresh : String → String) (now : Nat) :
    List (String × String) × List Nat × CollState :=
  syncLoop fresh now st [] [] (enumeratePairs st)

/-- The two change-collection loops at the end of `_sync`. -/
def syncChanges (state old_state : List (String × String)) : List String :=
  (state.filter (fun p => !(some p.2 == dictGet old_state p.1))).map (fun p => p.1) ++
    (old_state.filter (fun p => (dictGet state p.1).isNone)).map (fun p => p.1)

/-- `Collection._sync(old_token)`: token validation, new-state and token
computation, early return on an unchanged token, old-snapshot load, idempotent
snapshot insert, and the change diff.  A raised `ValueError` is
`Except.error`; the enclosing transaction then rolls back, so the error
carries no state. -/
def sync (st : CollState) (fresh : String → String) (now : Nat) (old_token : String) :
    Except String (String × List String × CollState) :=
  if old_token != "" && !(pyStartsWith old_token tokenPre) then
    .error ("Malformed token: " ++ old_token)
  else
    let old_token_name :=
      if old_token != "" then pySlice old_token tokenPre.toList.length else ""
    if old_token != "" && !(check_token_name old_token_name) then
      .error ("Malformed token: " ++ old_token)
    else
      let r := syncNewState st fresh now
      let state := r.1
      let st1 := r.2.2
      let token_name := sha256HexBytes r.2.1
      let token := tokenPre ++ token_name
      if token_name == old_token_name then
        .ok (token, [], st1)
      else
        let old_state :=
          if old_token_name != "" then
            match st1.snapshots.find? (fun s => s.1 == old_token_name) with
            | some s => s.2
            | none => []
          else []
        let st2 :=
          if (st1.snapshots.find? (fun s => s.1 == token_name)).isSome then st1
          else { st1 with snapshots := st1.snapshots ++ [(token_name, state)] }
        .ok (token, syncChanges state old_state, st2)

/-- The stored history etag of a name (empty when no row exists). -/
def histHE (hist : List HistRow) (n : String) : String :=
  match histFind hist n with | some r => r.history_etag | none => ""

/-- The stored snapshot mapping under a token suffix, if any. -/
def snapshotLookup (st : CollState) (name : String) : Option (List (String × String)) :=
  (st.snapshots.find? (fun s => s.1 == name)).map (fun s => s.2)

/-- The old mapping `_sync` diffs against for a given caller token: empty for
no token or an unknown one, otherwise the stored snapshot of the token's
suffix. -/
def oldStateOf (st : CollState) (tok : String) : List (String × String) :=
  if tok = "" then []
  else (snapshotLookup st (pySlice tok tokenPre.toList.length)).getD []

/-- The uniqueness constraints the schema in `db.py` enforces on one
collection's rows: unique item names, unique history names, and each stored
snapshot mapping is a dict (unique keys). -/
def WF (st : CollState) : Prop :=
  (st.items.map (fun it => it.name)).Nodup ∧
  (st.hist.map (fun r => r.name)).Nodup ∧
  ∀ p ∈ st.snapshots, (p.2.map Prod.fst).Nodup

instance (st : CollState) : Decidable (WF st) := by
  unfold WF; infer_instance

/-! ## `Storage._create_collection`

The `cas.collection` rows: `rootId` is the id of the root row
(`parent_id = NULL`), created once by `db.create`.  The walk below models the
`props=None, items=None` call; the `props`/`items` bulk-replace branches run
only after the walk and never change the walked path, and the depth
`ValueError` is raised before any database statement executes, so nothing is
created on that path. -/

/-- A row of `cas.collection` (the `domain_id`, `tag` and `modified_at`
columns play no role in the claims). -/
structure CollRow where
  id : String
  parent_id : Option String
  name : String
deriving DecidableEq, Repr

structure Store where
  rows : List CollRow
  rootId : String
deriving DecidableEq, Repr

/-- `Storage._split_path`: split on `/`, drop one leading and one trailing
empty segment.  (On the empty string the Python indexes into an empty list
and raises; no caller passes it.) -/
def split_path (p : String) : List String :=
  let parts := pySplitAll p "/"
  let parts := match parts with
    | "" :: rest => rest
    | l => l
  match parts.getLast? with
  | some "" => parts.dropLast
  | _ => parts

/-- The per-segment loop of `_create_collection`: look the segment up under
the current parent (`one_or_none` under the unique `(parent_id, name)`
constraint), insert it when missing — with id `uuid.UUID(path[1])` for the
second segment (`i == 1`) and `uuid.uuid4()` otherwise — and descend.
`fresh k` models the `k`-th `str(uuid.uuid4())` draw; `path1` is `path[1]` of
the (possibly substituted) path. -/
def walkCreate (fresh : Nat → String) (path1 : String) :
    List CollRow → Nat → String → Nat → List String → String × List CollRow × Nat
  | rows, k, parent_id, _, [] => (parent_id, rows, k)
  | rows, k, parent_id, i, p :: rest =>
    match rows.find? (fun r => r.parent_id == some parent_id && r.name == p) with
    | some c => walkCreate fresh path1 rows k c.id (i + 1) rest
    | none =>
      let idk : String × Nat := if i == 1 then (pyUUIDStr path1, k) else (fresh k, k + 1)
      walkCreate fresh path1 (rows ++ [⟨idk.1, some parent_id, p⟩]) idk.2 idk.1 (i + 1) rest

/-- `Storage._create_collection(href)` (with `items=None`, `props=None`):
split the path; on a two-segment path whose second segment is not a valid
UUID, silently replace that segment with a fresh `str(uuid.uuid4())`; reject
paths deeper than two segments; then walk/create from the root.  Returns the
created/found collection's id, its path (`"/".join(path)`, as stored in the
returned `Collection` object), the new table and the next fresh index. -/
def createCollection (store : Store) (fresh : Nat → String) (k : Nat) (href : String) :
    Except String (String × String × Store × Nat) :=
  let path0 := split_path href
  if path0.length == 2 then
    let pk := if !(is_valid_uuid (path0.getD 1 "")) then
        ([path0.getD 0 "", fresh k], k + 1)
      else (path0, k)
    let w := walkCreate fresh (pk.1.getD 1 "") store.rows pk.2 store.rootId 0 pk.1
    .ok (w.1, String.intercalate "/" pk.1, ⟨w.2.1, store.rootId⟩, w.2.2)
  else if path0.length > 2 then
    .error "Invalid path"
  else
    let w := walkCreate fresh (path0.getD 1 "") store.rows k store.rootId 0 path0
    .ok (w.1, String.intercalate "/" path0, ⟨w.2.1, store.rootId⟩, w.2.2)

/-! ## The `cas.item_history` schema, from `db.py` -/

/-- The columns `db.py` declares on the `item_history` table. -/
def itemHistoryColumns : List String :=
  ["id", "collection_id", "modified_at", "name", "etag", "history_etag"]

/-- The column name `Collection._delete_history_refs` filters on
(`item_history_table.c.href.in_(...)`). -/
def deleteHistoryRefsColumn : String := "href"

/-! ## Statement helpers for the collection-creation claims -/

/-- The path `_create_collection` actually walks: a two-segment path whose
second segment is not a valid UUID has that segment silently replaced by a
fresh `str(uuid.uuid4())`. -/
def effPath (fresh : Nat → String) (k : Nat) (href : String) : List String :=
  let path := split_path href
  if path.length == 2 && !(is_valid_uuid (path.getD 1 "")) then [path.getD 0 "", fresh k]
  else path

/-- The created/found chain of collection rows for a walked path of at most
two segments: each row hangs under the previous one, starting at the root,
and the returned collection id is the last row's id. -/
def chainProp (rows2 : List CollRow) (root : String) : List String → String → Prop
  | [], cid => cid = root
  | [p], cid => ∃ r ∈ rows2, r.parent_id = some root ∧ r.name = p ∧ r.id = cid
  | [p, q], cid => ∃ r1 ∈ rows2, ∃ r2 ∈ rows2, r1.parent_id = some root ∧ r1.name = p ∧
      r2.parent_id = some r1.id ∧ r2.name = q ∧ r2.id = cid
  | _, _ => False

/-! ## Concrete states for witnesses and counterexamples -/

/-- A fixed valid-UUID href. -/
def c6Href : String := "11111111-1111-1111-1111-111111111111.vcf"

/-- The collection state after uploading payload `"X"` to `c6Href` on an
empty collection. -/
def c6St1 : CollState :=
  match upload ⟨[], [], []⟩ c6Href "X" "unused" "seed1" 1 with
  | .ok r => r.2
  | .error _ => ⟨[], [], []⟩

/-- ... after then deleting `c6Href`. -/
def c6St2 : CollState := (deleteItem c6St1 c6Href).getD ⟨[], [], []⟩

/-- ... after then re-uploading the same payload `"X"` to `c6Href`. -/
def c6St3 : CollState :=
  match upload c6St2 c6Href "X" "unused2" "seed3" 3 with
  | .ok r => r.2
  | .error _ => ⟨[], [], []⟩

/-- A one-tombstone collection state for the sync witnesses. -/
def w5St : CollState := ⟨[], [⟨"a", "", "h1", 0⟩], []⟩

/-- A fresh-seed supply for the sync witnesses (never consulted on `w5St`). -/
def w5F : String → String := fun _ => "f00df00df00df00df00df00df00df00d"

def w5Res : Except String (String × List String × CollState) := sync w5St w5F 0 ""

def w5T : String := match w5Res with | .ok r => r.1 | .error _ => ""

def w5Ch : List String := match w5Res with | .ok r => r.2.1 | .error _ => []

def w5St1 : CollState := match w5Res with | .ok r => r.2.2 | .error _ => w5St

/-- Two-tombstone states holding the same history rows in the two possible
enumeration orders, for the token order-dependence counterexample. -/
def c3StA : CollState := ⟨[], [⟨"a", "", "h1", 0⟩, ⟨"b", "", "h2", 0⟩], []⟩

def c3StB : CollState := ⟨[], [⟨"b", "", "h2", 0⟩, ⟨"a", "", "h1", 0⟩], []⟩

/-- The token suffix `_sync` computes on a collection state. -/
def syncTokenName (st : CollState) (fresh : String → String) (now : Nat) : String :=
  sha256HexBytes (syncNewState st fresh now).2.1

/-! ## Shape of SHA-256 hex digests -/

lemma getD_mem {α : Type} {l : List α} {d : α} (n : Nat) (hd : d ∈ l) : l.getD n d ∈ l := by
  rcases h : l[n]? with _ | a
  · simpa [List.getD, h] using hd
  · have ha : a ∈ l := List.getElem?_mem h
    simpa [List.getD, h] using ha

lemma length_natToBytesBE (k n : Nat) : (natToBytesBE k n).length = k := by
  simp [natToBytesBE]

lemma sha256Compress_length (h b : List Nat) : (sha256Compress h b).length = 8 := by
  simp [sha256Compress]

lemma foldl_sha256Compress_length (bl : List (List Nat)) :
    ∀ H : List Nat, H.length = 8 → (bl.foldl sha256Compress H).length = 8 := by
  induction bl with
  | nil => intro H hH; simpa using hH
  | cons b bl ih => intro H _; exact ih _ (sha256Compress_length H b)

lemma foldr_bytes_length (hs : List Nat) :
    (hs.foldr (fun w acc => natToBytesBE 4 w ++ acc) []).length = 4 * hs.length := by
  induction hs with
  | nil => rfl
  | cons w ws ih => simp [List.foldr_cons, length_natToBytesBE, ih]; omega

lemma sha256Bytes_length (msg : List Nat) : (sha256Bytes msg).length = 32 := by
  unfold sha256Bytes
  rw [foldr_bytes_length,
    foldl_sha256Compress_length _ sha256H0 rfl]

lemma mk_length (cs : List Char) : (String.mk cs).length = cs.length := rfl

lemma bytesToHex_length (bs : List Nat) : (bytesToHex bs).length = 2 * bs.length := by
  unfold bytesToHex
  rw [mk_length]
  induction bs with
  | nil => rfl
  | cons b bs ih => simp [List.flatMap_cons] at ih ⊢; omega

lemma bytesToHex_chars (bs : List Nat) : ∀ c ∈ (bytesToHex bs).data, c ∈ hexChars := by
  intro c hc
  have : c ∈ bs.flatMap (fun b => [hexChars.getD (b / 16 % 16) '0', hexChars.getD (b % 16) '0']) := hc
  rcases List.mem_flatMap.mp this with ⟨b, _, hcb⟩
  have h0 : ('0' : Char) ∈ hexChars := by decide
  rcases List.mem_cons.mp hcb with h | hcb2
  · rw [h]; exact getD_mem _ h0
  rcases List.mem_cons.mp hcb2 with h | h
  · rw [h]; exact getD_mem _ h0
  · cases h

lemma sha256HexBytes_length (msg : List Nat) : (sha256HexBytes msg).length = 64 := by
  unfold sha256HexBytes
  rw [bytesToHex_length, sha256Bytes_length]

lemma sha256HexBytes_ne_empty (msg : List Nat) : sha256HexBytes msg ≠ "" := by
  intro h
  have := sha256HexBytes_length msg
  rw [h] at this
  simp [String.length] at this

lemma check_token_name_sha (msg : List Nat) :
    check_token_name (sha256HexBytes msg) = true := by
  unfold check_token_name
  rw [if_neg]
  · rw [List.all_eq_true]
    intro c hc
    have hmem : c ∈ hexChars := bytesToHex_chars (sha256Bytes msg) c hc
    have : ∀ x ∈ hexChars, (("0123456789abcdefabcdef".toList).contains x) = true := by decide
    exact this c hmem
  · simp [sha256HexBytes_length]

/-! ## Strings: quotes stripping, token prefix, dict lookups -/

lemma mk_data (s : String) : String.mk s.data = s := rfl

lemma dropWhile_false_id {α : Type} {p : α → Bool} {l : List α}
    (h : ∀ x ∈ l, p x = false) : l.dropWhile p = l := by
  cases l with
  | nil => rfl
  | cons a l =>
    rw [List.dropWhile_cons, if_neg]
    simp [h a (List.mem_cons_self a l)]

lemma pyStripChars_wrap (cs : List Char) (a : Char) (t : String)
    (ha : cs.contains a = true) (ht : ∀ x ∈ t.data, cs.contains x = false)
    (hne : t.data ≠ []) :
    pyStripChars cs (String.mk (a :: (t.data ++ [a]))) = t := by
  unfold pyStripChars
  show String.mk ((((a :: (t.data ++ [a])).dropWhile cs.contains).reverse.dropWhile
    cs.contains).reverse) = t
  rw [List.dropWhile_cons, if_pos ha]
  rcases List.exists_cons_of_ne_nil hne with ⟨b, bs, hbs⟩
  have hb : cs.contains b = false := ht b (by rw [hbs]; exact List.mem_cons_self b bs)
  rw [hbs, List.cons_append, List.dropWhile_cons, if_neg (by rw [hb]; simp)]
  have hrev : (b :: (bs ++ [a])).reverse = a :: (b :: bs).reverse := by
    rw [← List.cons_append, List.reverse_append]
    rfl
  rw [hrev, List.dropWhile_cons, if_pos ha,
    dropWhile_false_id (fun x hx => ht x (by rw [hbs]; exact List.mem_reverse.mp hx)),
    List.reverse_reverse, ← hbs, mk_data]

lemma sha256HexStr_data_ne_nil (s : String) : (sha256HexStr s).data ≠ [] := by
  intro h
  have h1 : (sha256HexStr s).length = 64 := sha256HexBytes_length _
  rw [show (sha256HexStr s).length = (sha256HexStr s).data.length from rfl, h] at h1
  simp at h1

/-- `get_etag(...).strip('"')` is the raw SHA-256 hex digest. -/
lemma strip_get_etag (s : String) :
    pyStripChars ['"'] (get_etag s) = sha256HexStr s := by
  have h1 : get_etag s = String.mk ('"' :: ((sha256HexStr s).data ++ ['"'])) := rfl
  rw [h1]
  apply pyStripChars_wrap
  · decide
  · intro x hx
    have hmem : x ∈ hexChars := bytesToHex_chars _ x hx
    have : ∀ y ∈ hexChars, ((['"'] : List Char).contains y) = false := by decide
    exact this x hmem
  · exact sha256HexStr_data_ne_nil s

lemma get_etag_ne_empty (s : String) : get_etag s ≠ "" := by
  intro h
  have := congrArg String.data h
  simp only [get_etag] at this
  have h2 : ('"' :: ((sha256HexStr s).data ++ ['"'])) = ([] : List Char) := this
  cases h2

lemma pyStartsWith_pre (s : String) : pyStartsWith (tokenPre ++ s) tokenPre = true := by
  unfold pyStartsWith
  show (((tokenPre.data ++ s.data).take tokenPre.data.length == tokenPre.data)) = true
  rw [List.take_left]
  simp

lemma pySlice_pre (s : String) : pySlice (tokenPre ++ s) tokenPre.toList.length = s := by
  unfold pySlice
  show String.mk ((tokenPre.data ++ s.data).drop tokenPre.data.length) = s
  rw [List.drop_left, mk_data]

lemma startsWith_decomp (tok : String) (h : pyStartsWith tok tokenPre = true) :
    tok = tokenPre ++ pySlice tok tokenPre.toList.length := by
  unfold pyStartsWith at h
  have htake : tok.data.take tokenPre.data.length = tokenPre.data := eq_of_beq h
  conv_lhs => rw [← mk_data tok, ← List.take_append_drop tokenPre.data.length tok.data]
  rw [htake]
  rfl

/-! ## Dict lemmas -/

lemma dictGet_snoc_ne (d : List (String × String)) (k v q : String) (h : ¬k = q) :
    dictGet (d ++ [(k, v)]) q = dictGet d q := by
  induction d with
  | nil =>
    simp only [List.nil_append, dictGet]
    rw [if_neg (by simp [h])]
  | cons p rest ih =>
    rw [List.cons_append]
    simp only [dictGet]
    rw [ih]

lemma dictGet_isSome_iff (d : List (String × String)) (n : String) :
    (dictGet d n).isSome = true ↔ n ∈ d.map Prod.fst := by
  induction d with
  | nil => simp [dictGet]
  | cons p rest ih =>
    simp only [List.map_cons, List.mem_cons]
    simp only [dictGet]
    cases hq : (p.1 == n) with
    | false =>
      rw [if_neg (by simp [hq])]
      constructor
      · intro h
        exact Or.inr (ih.mp h)
      · intro h
        rcases h with h | h
        · exact absurd h.symm (ne_of_beq_false hq)
        · exact ih.mpr h
    | true =>
      rw [if_pos (by simp [hq])]
      simp only [Option.isSome_some, true_iff]
      exact Or.inl (eq_of_beq hq).symm

lemma dictGet_of_mem_nodup (d : List (String × String))
    (hd : (d.map Prod.fst).Nodup) (p : String × String) (hp : p ∈ d) :
    dictGet d p.1 = some p.2 := by
  induction d with
  | nil => cases hp
  | cons q rest ih =>
    simp only [dictGet]
    rcases List.mem_cons.mp hp with h | h
    · subst h
      rw [if_pos (by simp)]
    · have hne : ¬q.1 = p.1 := by
        intro he
        apply (List.nodup_cons.mp hd).1
        rw [he]
        exact List.mem_map_of_mem Prod.fst h
      rw [if_neg (by simp [hne])]
      exact ih (List.nodup_cons.mp hd).2 h

lemma dictGet_none_of_not_mem (d : List (String × String)) (n : String)
    (h : n ∉ d.map Prod.fst) : dictGet d n = none := by
  rcases hd : dictGet d n with _ | v
  · rfl
  · exact absurd ((dictGet_isSome_iff d n).mp (by rw [hd]; rfl)) h

lemma dict_ext (l1 l2 : List (String × String))
    (hk : l1.map Prod.fst = l2.map Prod.fst)
    (hnd : (l1.map Prod.fst).Nodup)
    (hv : ∀ k ∈ l1.map Prod.fst, dictGet l1 k = dictGet l2 k) : l1 = l2 := by
  induction l1 generalizing l2 with
  | nil =>
    rcases l2 with _ | ⟨q, t2⟩
    · rfl
    · simp at hk
  | cons p t1 ih =>
    rcases l2 with _ | ⟨q, t2⟩
    · simp at hk
    · simp only [List.map_cons, List.cons.injEq] at hk
      obtain ⟨hk1, hk2⟩ := hk
      have hval := hv p.1 (List.mem_cons_self _ _)
      simp only [dictGet] at hval
      rw [if_pos (by simp), if_pos (by simp [hk1.symm])] at hval
      have hp2 : p.2 = q.2 := Option.some.inj hval
      have hpq : p = q := Prod.ext hk1 hp2
      have hnd2 : p.1 ∉ t1.map Prod.fst ∧ (t1.map Prod.fst).Nodup := by
        rw [List.map_cons] at hnd
        exact List.nodup_cons.mp hnd
      rw [hpq]
      congr 1
      apply ih
      · exact hk2
      · exact hnd2.2
      · intro k hkmem
        have hkne : ¬p.1 = k := by
          intro he
          apply hnd2.1
          rw [he]
          exact hkmem
        have := hv k (List.mem_cons_of_mem _ hkmem)
        simp only [dictGet] at this
        rw [if_neg (by simp [hkne]), if_neg (by simp [hk1 ▸ hkne])] at this
        exact this

lemma check_token_name_iff (s : String) :
    check_token_name s = true ↔
      (s.length = 64 ∧ ∀ c ∈ s.toList, c ∈ "0123456789abcdefabcdef".toList) := by
  unfold check_token_name
  by_cases h : s.length = 64
  · rw [if_neg (by simp [h])]
    simp only [List.all_eq_true, h, true_and]
    constructor
    · intro ha c hc
      simpa using ha c hc
    · intro ha c hc
      simpa using ha c hc
  · rw [if_pos (by simp [h])]
    simp [h]

/-! ## Claim C4: malformed sync tokens are rejected -/

/-- **C4**.  For every non-empty caller-supplied sync token that does not
start with the fixed prefix `http://radicale.org/ns/sync/`, or whose suffix
is not exactly 64 lowercase hexadecimal characters, `_sync` raises
`ValueError("Malformed token: ...")` before any collection state is read or
written — the result is the bare error (the enclosing transaction rolls back,
carrying no state), and a malformed token is never treated as "no token". -/
theorem sync_rejects_malformed_tokens (st : CollState) (fresh : String → String)
    (now : Nat) (old_token : String) (hne : old_token ≠ "")
    (hbad : pyStartsWith old_token tokenPre = false ∨
      ¬((pySlice old_token tokenPre.toList.length).length = 64 ∧
        ∀ c ∈ (pySlice old_token tokenPre.toList.length).toList,
          c ∈ "0123456789abcdefabcdef".toList)) :
    sync st fresh now old_token = .error ("Malformed token: " ++ old_token) := by
  unfold sync
  have hne2 : (old_token != "") = true := by simp [hne]
  cases hsw : pyStartsWith old_token tokenPre with
  | false =>
    simp [hne2, hsw]
  | true =>
    have hct : check_token_name (pySlice old_token tokenPre.toList.length) = false := by
      cases hc : check_token_name (pySlice old_token tokenPre.toList.length) with
      | false => rfl
      | true =>
        rcases hbad with h | h
        · rw [hsw] at h
          cases h
        · exact absurd ((check_token_name_iff _).mp hc) h
    have hct2 : check_token_name (pySlice old_token tokenPre.length) = false := by
      have hl : tokenPre.toList.length = tokenPre.length := by simp
      rw [← hl]
      exact hct
    simp [hne2, hsw, hct, hct2]

/-- Witness for C4: the concrete malformed tokens `"garbage"` (wrong prefix)
and a wrong-suffix token are both rejected. -/
theorem sync_rejects_malformed_tokens_witness :
    sync ⟨[], [], []⟩ (fun _ => "") 0 "garbage" =
      .error ("Malformed token: " ++ "garbage") ∧
    sync ⟨[], [], []⟩ (fun _ => "") 0 "http://radicale.org/ns/sync/zzzz" =
      .error ("Malformed token: " ++ "http://radicale.org/ns/sync/zzzz") :=
  ⟨sync_rejects_malformed_tokens _ _ _ _ (by decide) (Or.inl (by decide)),
   sync_rejects_malformed_tokens _ _ _ _ (by decide) (Or.inr (by decide))⟩

/-! ## Claim C7: href rewriting on upload -/

/-- **C7 counterexample**.  The claim says a `.ics` href keeps the
caller-supplied stem as-is; in fact `_upload` treats `.ics` exactly like
`.vcf`: the non-UUID stem `"foo"` is replaced and the href rewritten to the
fresh UUID plus `.ics`. -/
theorem upload_ics_rewrites_counterexample :
    uploadHref "foo.ics" "22222222-2222-2222-2222-222222222222" =
      .ok ("22222222-2222-2222-2222-222222222222",
        "22222222-2222-2222-2222-222222222222.ics") ∧
    ("22222222-2222-2222-2222-222222222222.ics" == "foo.ics") = false := by
  decide

/-- **C7 amended**.  On upload the item identity is derived from the href's
extension, and BOTH supported formats behave alike: a `.vcf` or `.ics` href
whose stem does not parse as a UUID gets a fresh identity and its href
rewritten to the fresh UUID plus the same extension; a href whose stem does
parse keeps the caller's href (with the parsed UUID as identity); any other
extension raises `ValueError` (a hard failure). -/
theorem upload_href_derivation (href f1 : String) :
    (pyEndsWith href ".vcf" = true → is_valid_uuid (pySplitFirst href ".vcf") = false →
      uploadHref href f1 = .ok (f1, f1 ++ ".vcf"))
  ∧ (pyEndsWith href ".vcf" = true → is_valid_uuid (pySplitFirst href ".vcf") = true →
      uploadHref href f1 = .ok (pyUUIDStr (pySplitFirst href ".vcf"), href))
  ∧ (pyEndsWith href ".vcf" = false → pyEndsWith href ".ics" = true →
      is_valid_uuid (pySplitFirst href ".ics") = false →
      uploadHref href f1 = .ok (f1, f1 ++ ".ics"))
  ∧ (pyEndsWith href ".vcf" = false → pyEndsWith href ".ics" = true →
      is_valid_uuid (pySplitFirst href ".ics") = true →
      uploadHref href f1 = .ok (pyUUIDStr (pySplitFirst href ".ics"), href))
  ∧ (pyEndsWith href ".vcf" = false → pyEndsWith href ".ics" = false →
      uploadHref href f1 = .error "Invalid file extension") := by
  unfold uploadHref
  refine ⟨fun h1 h2 => ?_, fun h1 h2 => ?_, fun h1 h2 h3 => ?_, fun h1 h2 h3 => ?_,
    fun h1 h2 => ?_⟩
  · rw [if_pos (by rw [h1]), if_neg (by rw [h2]; simp)]
  · rw [if_pos (by rw [h1]), if_pos (by rw [h2])]
  · rw [if_neg (by rw [h1]; simp), if_pos (by rw [h2]), if_neg (by rw [h3]; simp)]
  · rw [if_neg (by rw [h1]; simp), if_pos (by rw [h2]), if_pos (by rw [h3])]
  · rw [if_neg (by rw [h1]; simp), if_neg (by rw [h2]; simp)]

/-- Non-vacuity of the five cases of the amended C7 theorem, at concrete
hrefs. -/
theorem upload_href_derivation_witness :
    uploadHref "foo.vcf" "22222222-2222-2222-2222-222222222222" =
      .ok ("22222222-2222-2222-2222-222222222222",
        "22222222-2222-2222-2222-222222222222.vcf") ∧
    uploadHref "11111111-1111-1111-1111-111111111111.vcf" "x" =
      .ok ("11111111-1111-1111-1111-111111111111",
        "11111111-1111-1111-1111-111111111111.vcf") ∧
    uploadHref "foo.ics" "22222222-2222-2222-2222-222222222222" =
      .ok ("22222222-2222-2222-2222-222222222222",
        "22222222-2222-2222-2222-222222222222.ics") ∧
    uploadHref "11111111-1111-1111-1111-111111111111.ics" "x" =
      .ok ("11111111-1111-1111-1111-111111111111",
        "11111111-1111-1111-1111-111111111111.ics") ∧
    uploadHref "foo.txt" "x" = .error "Invalid file extension" :=
  ⟨(upload_href_derivation "foo.vcf" "22222222-2222-2222-2222-222222222222").1
    (by decide) (by decide),
   by
    have h := (upload_href_derivation "11111111-1111-1111-1111-111111111111.vcf" "x").2.1
      (by decide) (by decide)
    rw [h]; decide,
   (upload_href_derivation "foo.ics" "22222222-2222-2222-2222-222222222222").2.2.1
    (by decide) (by decide) (by decide),
   by
    have h := (upload_href_derivation "11111111-1111-1111-1111-111111111111.ics" "x").2.2.2.1
      (by decide) (by decide) (by decide)
    rw [h]; decide,
   (upload_href_derivation "foo.txt" "x").2.2.2.2 (by decide) (by decide)⟩

/-! ## Claim C8: the retention purge is broken (code bug) -/

/-- **C8**.  Tombstone detection (`_get_deleted_history_refs`) does find
exactly the history rows with no live item; but the purge itself
(`_delete_history_refs`) filters on `item_history_table.c.href`, and the
`item_history` table declared in `db.py` has no `href` column (the column is
`name`), so every call raises `AttributeError` and no purge can ever run. -/
theorem delete_history_refs_column_bug (st : CollState) (n : String) :
    (n ∈ deletedHistoryRefs st ↔
      (∃ r ∈ st.hist, r.name = n ∧ ∀ it ∈ st.items, it.name ≠ n)) ∧
    itemHistoryColumns.contains deleteHistoryRefsColumn = false := by
  constructor
  · unfold deletedHistoryRefs
    simp only [List.mem_map, List.mem_filter, List.all_eq_true]
    constructor
    · rintro ⟨r, ⟨hr, hall⟩, hname⟩
      refine ⟨r, hr, hname, fun it hit => ?_⟩
      have h2 := hall it hit
      rw [hname] at h2
      simpa using h2
    · rintro ⟨r, hr, hname, hall⟩
      refine ⟨r, ⟨hr, fun it hit => ?_⟩, hname⟩
      have h2 := hall it hit
      rw [hname]
      simpa using h2
  · decide

/-! ## The collection-creation walk -/

lemma collFind_spec {rows : List CollRow} {pid p : String} {c : CollRow}
    (h : rows.find? (fun r => r.parent_id == some pid && r.name == p) = some c) :
    c ∈ rows ∧ c.parent_id = some pid ∧ c.name = p := by
  have hp := List.find?_some h
  rw [Bool.and_eq_true] at hp
  exact ⟨List.mem_of_find?_eq_some h, eq_of_beq hp.1, eq_of_beq hp.2⟩

lemma walkCreate_nil (fresh : Nat → String) (path1 : String) (rows : List CollRow)
    (k : Nat) (pid : String) (i : Nat) :
    walkCreate fresh path1 rows k pid i [] = (pid, rows, k) := rfl

lemma walkCreate_cons (fresh : Nat → String) (path1 : String) (rows : List CollRow)
    (k : Nat) (pid : String) (i : Nat) (p : String) (rest : List String) :
    walkCreate fresh path1 rows k pid i (p :: rest) =
      (match rows.find? (fun r => r.parent_id == some pid && r.name == p) with
       | some c => walkCreate fresh path1 rows k c.id (i + 1) rest
       | none =>
         let idk : String × Nat :=
           if i == 1 then (pyUUIDStr path1, k) else (fresh k, k + 1)
         walkCreate fresh path1 (rows ++ [⟨idk.1, some pid, p⟩]) idk.2 idk.1 (i + 1)
           rest) := rfl

lemma walkCreate_found (fresh : Nat → String) (path1 : String) (rows : List CollRow)
    (k : Nat) (pid : String) (i : Nat) (p : String) (rest : List String) (c : CollRow)
    (hf : rows.find? (fun r => r.parent_id == some pid && r.name == p) = some c) :
    walkCreate fresh path1 rows k pid i (p :: rest) =
      walkCreate fresh path1 rows k c.id (i + 1) rest := by
  rw [walkCreate_cons, hf]

lemma walkCreate_missing (fresh : Nat → String) (path1 : String) (rows : List CollRow)
    (k : Nat) (pid : String) (i : Nat) (p : String) (rest : List String)
    (hf : rows.find? (fun r => r.parent_id == some pid && r.name == p) = none) :
    walkCreate fresh path1 rows k pid i (p :: rest) =
      (let idk : String × Nat :=
        if i == 1 then (pyUUIDStr path1, k) else (fresh k, k + 1)
      walkCreate fresh path1 (rows ++ [⟨idk.1, some pid, p⟩]) idk.2 idk.1 (i + 1) rest) := by
  rw [walkCreate_cons, hf]

lemma walkCreate_one (fresh : Nat → String) (path1 : String) (rows : List CollRow)
    (k : Nat) (pid : String) (p : String) :
    ∃ r1 rows2 k2, walkCreate fresh path1 rows k pid 0 [p] = (r1.id, rows2, k2) ∧
      (∃ newRows, rows2 = rows ++ newRows) ∧
      r1 ∈ rows2 ∧ r1.parent_id = some pid ∧ r1.name = p := by
  cases hf : rows.find? (fun r => r.parent_id == some pid && r.name == p) with
  | some c =>
    obtain ⟨hm, hpar, hname⟩ := collFind_spec hf
    exact ⟨c, rows, k,
      by rw [walkCreate_found _ _ _ _ _ _ _ _ _ hf, walkCreate_nil],
      ⟨[], by simp⟩, hm, hpar, hname⟩
  | none =>
    refine ⟨⟨fresh k, some pid, p⟩, rows ++ [⟨fresh k, some pid, p⟩], k + 1,
      by rw [walkCreate_missing _ _ _ _ _ _ _ _ hf]; rfl,
      ⟨[⟨fresh k, some pid, p⟩], rfl⟩, ?_, rfl, rfl⟩
    exact List.mem_append_right _ (List.mem_cons_self _ _)

lemma walkCreate_two (fresh : Nat → String) (path1 : String) (rows : List CollRow)
    (k : Nat) (pid : String) (p q : String) :
    ∃ r1 r2 rows2 k2, walkCreate fresh path1 rows k pid 0 [p, q] = (r2.id, rows2, k2) ∧
      (∃ newRows, rows2 = rows ++ newRows) ∧
      r1 ∈ rows2 ∧ r2 ∈ rows2 ∧ r1.parent_id = some pid ∧ r1.name = p ∧
      r2.parent_id = some r1.id ∧ r2.name = q := by
  cases hf : rows.find? (fun r => r.parent_id == some pid && r.name == p) with
  | some c1 =>
    obtain ⟨hm1, hpar1, hname1⟩ := collFind_spec hf
    have h1 := walkCreate_found fresh path1 rows k pid 0 p [q] c1 hf
    cases hg : rows.find? (fun r => r.parent_id == some c1.id && r.name == q) with
    | some c2 =>
      obtain ⟨hm2, hpar2, hname2⟩ := collFind_spec hg
      exact ⟨c1, c2, rows, k,
        by rw [h1, walkCreate_found _ _ _ _ _ _ _ _ _ hg, walkCreate_nil],
        ⟨[], by simp⟩, hm1, hm2, hpar1, hname1, hpar2, hname2⟩
    | none =>
      refine ⟨c1, ⟨pyUUIDStr path1, some c1.id, q⟩,
        rows ++ [⟨pyUUIDStr path1, some c1.id, q⟩], k,
        by rw [h1, walkCreate_missing _ _ _ _ _ _ _ _ hg]; rfl,
        ⟨[⟨pyUUIDStr path1, some c1.id, q⟩], rfl⟩,
        List.mem_append_left _ hm1, ?_, hpar1, hname1, rfl, rfl⟩
      exact List.mem_append_right _ (List.mem_cons_self _ _)
  | none =>
    have h1 := walkCreate_missing fresh path1 rows k pid 0 p [q] hf
    have h1b : walkCreate fresh path1 rows k pid 0 [p, q] =
        walkCreate fresh path1 (rows ++ [⟨fresh k, some pid, p⟩]) (k + 1) (fresh k) 1 [q] := h1
    cases hg : (rows ++ [(⟨fresh k, some pid, p⟩ : CollRow)]).find?
        (fun r => r.parent_id == some (fresh k) && r.name == q) with
    | some c2 =>
      obtain ⟨hm2, hpar2, hname2⟩ := collFind_spec hg
      refine ⟨⟨fresh k, some pid, p⟩, c2, rows ++ [⟨fresh k, some pid, p⟩], k + 1,
        by rw [h1b, walkCreate_found _ _ _ _ _ _ _ _ _ hg, walkCreate_nil],
        ⟨[⟨fresh k, some pid, p⟩], rfl⟩, ?_, hm2, rfl, rfl, hpar2, hname2⟩
      exact List.mem_append_right _ (List.mem_cons_self _ _)
    | none =>
      refine ⟨⟨fresh k, some pid, p⟩, ⟨pyUUIDStr path1, some (fresh k), q⟩,
        (rows ++ [⟨fresh k, some pid, p⟩]) ++ [⟨pyUUIDStr path1, some (fresh k), q⟩],
        k + 1,
        by rw [h1b, walkCreate_missing _ _ _ _ _ _ _ _ hg]; rfl,
        ⟨[⟨fresh k, some pid, p⟩] ++ [⟨pyUUIDStr path1, some (fresh k), q⟩], by simp⟩,
        ?_, ?_, rfl, rfl, rfl, rfl⟩
      · exact List.mem_append_left _ (List.mem_append_right _ (List.mem_cons_self _ _))
      · exact List.mem_append_right _ (List.mem_cons_self _ _)

/-! ## The version tracker, case by case -/

lemma updateHistoryEtag_noop (st : CollState) (href : String) (item : Option String)
    (seed : String) (now : Nat) (row : HistRow)
    (hf : histFind st.hist href = some row) (he : dataEtag item = row.etag) :
    updateHistoryEtag st href item seed now = (row.history_etag, st) := by
  unfold updateHistoryEtag
  rw [hf, he]
  simp

lemma updateHistoryEtag_write (st : CollState) (href : String) (item : Option String)
    (seed : String) (now : Nat) (row : HistRow)
    (hf : histFind st.hist href = some row) (he : ¬dataEtag item = row.etag) :
    updateHistoryEtag st href item seed now =
      (sha256HexStr (row.history_etag ++ "/" ++ dataEtag item),
       { st with hist := st.hist.map (fun r =>
           if r.name == href then
             { r with
               etag := dataEtag item
               history_etag := sha256HexStr (row.history_etag ++ "/" ++ dataEtag item)
               modified_at := now }
           else r) }) := by
  unfold updateHistoryEtag
  rw [hf]
  simp only [Option.isSome_some, if_true, bne_iff_ne, ne_eq, he, not_false_eq_true,
    if_pos, strip_get_etag]

lemma updateHistoryEtag_insert (st : CollState) (href : String) (item : Option String)
    (seed : String) (now : Nat)
    (hf : histFind st.hist href = none) (he : ¬dataEtag item = "") :
    updateHistoryEtag st href item seed now =
      (sha256HexStr (seed ++ "/" ++ dataEtag item),
       { st with hist := st.hist ++
           [⟨href, dataEtag item, sha256HexStr (seed ++ "/" ++ dataEtag item), now⟩] }) := by
  unfold updateHistoryEtag
  rw [hf]
  simp only [Option.isSome_none, Bool.false_eq_true, if_false, bne_iff_ne, ne_eq, he,
    not_false_eq_true, if_pos, strip_get_etag]

lemma updateHistoryEtag_seed (st : CollState) (href : String) (item : Option String)
    (seed : String) (now : Nat)
    (hf : histFind st.hist href = none) (he : dataEtag item = "") :
    updateHistoryEtag st href item seed now = (seed, st) := by
  unfold updateHistoryEtag
  rw [hf, he]
  simp

lemma updateHistoryEtag_frame (st : CollState) (href : String) (item : Option String)
    (seed : String) (now : Nat) :
    (updateHistoryEtag st href item seed now).2.items = st.items ∧
    (updateHistoryEtag st href item seed now).2.snapshots = st.snapshots := by
  rcases hf : histFind st.hist href with _ | row
  · by_cases he : dataEtag item = ""
    · rw [updateHistoryEtag_seed st href item seed now hf he]
      exact ⟨rfl, rfl⟩
    · rw [updateHistoryEtag_insert st href item seed now hf he]
      exact ⟨rfl, rfl⟩
  · by_cases he : dataEtag item = row.etag
    · rw [updateHistoryEtag_noop st href item seed now row hf he]
      exact ⟨rfl, rfl⟩
    · rw [updateHistoryEtag_write st href item seed now row hf he]
      exact ⟨rfl, rfl⟩

lemma histFind_name {hist : List HistRow} {n : String} {row : HistRow}
    (hf : histFind hist n = some row) : row.name = n := by
  unfold histFind at hf
  have h2 := List.find?_some hf
  simpa using h2

lemma histFind_mem {hist : List HistRow} {n : String} {row : HistRow}
    (hf : histFind hist n = some row) : row ∈ hist := by
  unfold histFind at hf
  exact List.mem_of_find?_eq_some hf

lemma histFind_map_namePreserving (g : HistRow → HistRow)
    (hg : ∀ r, (g r).name = r.name) (hist : List HistRow) (n : String) :
    histFind (hist.map g) n = (histFind hist n).map g := by
  induction hist with
  | nil => rfl
  | cons r t ih =>
    unfold histFind at ih ⊢
    rw [List.map_cons]
    cases hc : (r.name == n) with
    | false =>
      rw [List.find?_cons_of_neg _ (by rw [hg r, hc]; simp),
        List.find?_cons_of_neg _ (by rw [hc]; simp)]
      exact ih
    | true =>
      rw [List.find?_cons_of_pos _ (by rw [hg r, hc]),
        List.find?_cons_of_pos _ (by rw [hc])]
      rfl

lemma histFind_other_of_update (st : CollState) (href : String) (item : Option String)
    (seed : String) (now : Nat) (n : String) (hne : ¬n = href) :
    histFind (updateHistoryEtag st href item seed now).2.hist n = histFind st.hist n := by
  have hne2 : ¬href = n := fun h => hne h.symm
  rcases hf : histFind st.hist href with _ | row
  · by_cases he : dataEtag item = ""
    · rw [updateHistoryEtag_seed st href item seed now hf he]
    · rw [updateHistoryEtag_insert st href item seed now hf he]
      show histFind (st.hist ++ [_]) n = _
      unfold histFind
      rw [List.find?_append]
      have hnil : List.find? (fun r => r.name == n)
          [(⟨href, dataEtag item, sha256HexStr (seed ++ "/" ++ dataEtag item), now⟩ :
            HistRow)] = none := by
        rw [List.find?_cons_of_neg _ (by simp [hne2])]
        rfl
      rw [hnil, Option.or_none]
  · by_cases he : dataEtag item = row.etag
    · rw [updateHistoryEtag_noop st href item seed now row hf he]
    · rw [updateHistoryEtag_write st href item seed now row hf he]
      show histFind (st.hist.map _) n = _
      rw [histFind_map_namePreserving _ (fun r => by split <;> rfl)]
      rcases hfn : histFind st.hist n with _ | r2
      · rfl
      · have hbeq : (r2.name == href) = false := by
          have hr2 : r2.name = n := histFind_name hfn
          simp [hr2, hne]
        rw [Option.map_some']
        rw [hbeq]
        simp

lemma updateHistoryEtag_post (st : CollState) (href : String) (item : Option String)
    (seed : String) (now : Nat)
    (h : (histFind st.hist href).isSome = true ∨ ¬dataEtag item = "") :
    ∃ row2, histFind (updateHistoryEtag st href item seed now).2.hist href = some row2 ∧
      row2.etag = dataEtag item ∧
      row2.history_etag = (updateHistoryEtag st href item seed now).1 := by
  rcases hf : histFind st.hist href with _ | row
  · have he : ¬dataEtag item = "" := by
      rcases h with h | h
      · rw [hf] at h
        cases h
      · exact h
    rw [updateHistoryEtag_insert st href item seed now hf he]
    refine ⟨⟨href, dataEtag item, sha256HexStr (seed ++ "/" ++ dataEtag item), now⟩,
      ?_, rfl, rfl⟩
    show histFind (st.hist ++ [_]) href = _
    unfold histFind at hf ⊢
    rw [List.find?_append, hf]
    rw [List.find?_cons_of_pos _ (by simp)]
    rfl
  · have hname : row.name = href := histFind_name hf
    by_cases he : dataEtag item = row.etag
    · rw [updateHistoryEtag_noop st href item seed now row hf he]
      exact ⟨row, hf, he.symm, rfl⟩
    · rw [updateHistoryEtag_write st href item seed now row hf he]
      refine ⟨{ row with
          etag := dataEtag item
          history_etag := sha256HexStr (row.history_etag ++ "/" ++ dataEtag item)
          modified_at := now }, ?_, rfl, rfl⟩
      show histFind (st.hist.map _) href = _
      rw [histFind_map_namePreserving _ (fun r => by split <;> rfl), hf,
        Option.map_some']
      rw [if_pos (by rw [hname]; simp)]

lemma updateHistoryEtag_names (st : CollState) (href : String) (item : Option String)
    (seed : String) (now : Nat) :
    ((updateHistoryEtag st href item seed now).2.hist.map (fun r => r.name) =
      st.hist.map (fun r => r.name)) ∨
    (((updateHistoryEtag st href item seed now).2.hist.map (fun r => r.name) =
      st.hist.map (fun r => r.name) ++ [href]) ∧ ∃ pl, item = some pl) := by
  rcases hf : histFind st.hist href with _ | row
  · by_cases he : dataEtag item = ""
    · rw [updateHistoryEtag_seed st href item seed now hf he]
      exact Or.inl rfl
    · rw [updateHistoryEtag_insert st href item seed now hf he]
      refine Or.inr ⟨by simp, ?_⟩
      rcases item with _ | pl
      · exact absurd rfl he
      · exact ⟨pl, rfl⟩
  · by_cases he : dataEtag item = row.etag
    · rw [updateHistoryEtag_noop st href item seed now row hf he]
      exact Or.inl rfl
    · rw [updateHistoryEtag_write st href item seed now row hf he]
      refine Or.inl ?_
      show (st.hist.map _).map _ = _
      rw [List.map_map]
      apply List.map_congr_left
      intro r _
      dsimp
      split <;> rfl

/-! ## Upload and delete, reduced to the version tracker -/

lemma upload_parts (st : CollState) (href payload f1 s1 : String) (n1 : Nat)
    (iid href2 : String) (hu : uploadHref href f1 = .ok (iid, href2)) :
    ∃ stm : CollState, stm.hist = st.hist ∧ stm.snapshots = st.snapshots ∧
      upload st href payload f1 s1 n1 =
        .ok (href2, (updateHistoryEtag stm href2 (some payload) s1 n1).2) := by
  unfold upload
  rw [hu]
  refine ⟨_, ?_, ?_, rfl⟩
  · cases st.items.find? (fun it => it.name == href2) <;> rfl
  · cases st.items.find? (fun it => it.name == href2) <;> rfl

lemma deleteItem_parts (st : CollState) (href : String) (st2 : CollState)
    (hd : deleteItem st href = some st2) :
    st2.hist = st.hist ∧ st2.snapshots = st.snapshots := by
  unfold deleteItem at hd
  cases hfind : st.items.find? (fun it => it.name == href) with
  | none =>
    rw [hfind] at hd
    cases hd
  | some it0 =>
    rw [hfind] at hd
    cases hd
    exact ⟨rfl, rfl⟩

/-! ## Claim C2: idempotence and chaining of the history etag -/

/-- **C2**.  The version tracker is idempotent on unchanged content: with an
existing `ItemHistory` row, an update whose current etag equals the stored
etag returns the stored `history_etag` and writes nothing (the state is
returned unchanged); when the etag differs, the new `history_etag` is the
SHA-256 hex digest of `previous_history_etag + "/" + current_etag` (the empty
string standing for an absent item).  Consequently uploading the same payload
twice to the same (stable) href yields byte-identical history tables after
the second upload. -/
theorem history_etag_idempotent_and_chain :
    (∀ (st : CollState) (href : String) (item : Option String) (seed : String)
      (now : Nat) (row : HistRow), histFind st.hist href = some row →
      dataEtag item = row.etag →
      updateHistoryEtag st href item seed now = (row.history_etag, st))
  ∧ (∀ (st : CollState) (href : String) (item : Option String) (seed : String)
      (now : Nat) (row : HistRow), histFind st.hist href = some row →
      ¬dataEtag item = row.etag →
      (updateHistoryEtag st href item seed now).1 =
        sha256HexStr (row.history_etag ++ "/" ++ dataEtag item))
  ∧ (∀ (st : CollState) (href payload f1 s1 f2 s2 : String) (n1 n2 : Nat)
      (iid iid2 href2 : String) (st1 : CollState),
      uploadHref href f1 = .ok (iid, href2) →
      uploadHref href f2 = .ok (iid2, href2) →
      upload st href payload f1 s1 n1 = .ok (href2, st1) →
      ∃ st2, upload st1 href payload f2 s2 n2 = .ok (href2, st2) ∧
        st2.hist = st1.hist) := by
  refine ⟨updateHistoryEtag_noop, ?_, ?_⟩
  · intro st href item seed now row hf he
    rw [updateHistoryEtag_write st href item seed now row hf he]
  · intro st href payload f1 s1 f2 s2 n1 n2 iid iid2 href2 st1 hu1 hu2 hup1
    obtain ⟨stm, hh, _, he⟩ := upload_parts st href payload f1 s1 n1 iid href2 hu1
    rw [he] at hup1
    have hst1 : (updateHistoryEtag stm href2 (some payload) s1 n1).2 = st1 := by
      have h2 := hup1
      simp only [Except.ok.injEq, Prod.mk.injEq, true_and] at h2
      exact h2
    obtain ⟨row2, hfind2, hetag2, _⟩ :=
      updateHistoryEtag_post stm href2 (some payload) s1 n1
        (Or.inr (get_etag_ne_empty payload))
    rw [hst1] at hfind2
    obtain ⟨stm2, hh2, _, he2⟩ := upload_parts st1 href payload f2 s2 n2 iid2 href2 hu2
    have hnoop := updateHistoryEtag_noop stm2 href2 (some payload) s2 n2 row2
      (by rw [hh2]; exact hfind2) hetag2.symm
    rw [hnoop] at he2
    exact ⟨stm2, he2, hh2⟩

/-- Non-vacuity of C2 at a concrete run: uploading `"X"` twice to a fixed
UUID href leaves the history table byte-identical. -/
theorem history_etag_idempotent_and_chain_witness :
    ∃ st2, upload c6St1 c6Href "X" "u2" "s2" 2 = .ok (c6Href, st2) ∧
      st2.hist = c6St1.hist :=
  history_etag_idempotent_and_chain.2.2 ⟨[], [], []⟩ c6Href "X" "unused" "seed1" "u2" "s2"
    1 2 "11111111-1111-1111-1111-111111111111" "11111111-1111-1111-1111-111111111111"
    c6Href c6St1 (by decide) (by decide) (by decide)

/-! ## Claim C6: delete then re-upload of the same payload -/

/-- **C6 counterexample**.  Upload payload `"X"` to a UUID href, observe its
history etag, delete the item, and re-upload the same payload with no sync in
between: the claim says the resulting history etag differs; in fact it is
byte-identical, because `_delete` never calls `_update_history_etag` (the
stored etag still matches, so the re-upload is a no-op on the chain). -/
theorem delete_reupload_counterexample :
    upload ⟨[], [], []⟩ c6Href "X" "unused" "seed1" 1 = .ok (c6Href, c6St1) ∧
    deleteItem c6St1 c6Href = some c6St2 ∧
    upload c6St2 c6Href "X" "unused2" "seed3" 3 = .ok (c6Href, c6St3) ∧
    (histHE c6St3.hist c6Href == histHE c6St1.hist c6Href) = true ∧
    (histHE c6St1.hist c6Href == "") = false := by
  decide

/-- **C6 amended**.  After uploading a payload to href H (observing history
etag h1), deleting H, and re-uploading the same payload with no intervening
sync call, the history table — and in particular the history etag of H — is
unchanged from before the deletion: `_delete` does not invoke the version
tracker (only writes, moves and the sync computation do), and the re-upload
finds the stored etag equal to the payload's etag, so the chain does not
advance.  (The chain advances for the deletion only when a sync runs while
the item is absent.) -/
theorem delete_reupload_same_history (st : CollState)
    (href payload f1 s1 f3 s3 : String) (n1 n3 : Nat) (iid iid3 href2 : String)
    (st1 st2 : CollState)
    (hu1 : uploadHref href f1 = .ok (iid, href2))
    (hu3 : uploadHref href f3 = .ok (iid3, href2))
    (hup1 : upload st href payload f1 s1 n1 = .ok (href2, st1))
    (hdel : deleteItem st1 href2 = some st2) :
    ∃ st3, upload st2 href payload f3 s3 n3 = .ok (href2, st3) ∧
      st3.hist = st1.hist ∧
      histFind st3.hist href2 = histFind st1.hist href2 := by
  obtain ⟨stm, hh, _, he⟩ := upload_parts st href payload f1 s1 n1 iid href2 hu1
  rw [he] at hup1
  have hst1 : (updateHistoryEtag stm href2 (some payload) s1 n1).2 = st1 := by
    have h2 := hup1
    simp only [Except.ok.injEq, Prod.mk.injEq, true_and] at h2
    exact h2
  obtain ⟨row2, hfind2, hetag2, _⟩ :=
    updateHistoryEtag_post stm href2 (some payload) s1 n1
      (Or.inr (get_etag_ne_empty payload))
  rw [hst1] at hfind2
  obtain ⟨hdh, _⟩ := deleteItem_parts st1 href2 st2 hdel
  obtain ⟨stm3, hh3, _, he3⟩ := upload_parts st2 href payload f3 s3 n3 iid3 href2 hu3
  have hnoop := updateHistoryEtag_noop stm3 href2 (some payload) s3 n3 row2
    (by rw [hh3, hdh]; exact hfind2) hetag2.symm
  rw [hnoop] at he3
  refine ⟨stm3, he3, ?_, ?_⟩
  · rw [hh3, hdh]
  · rw [hh3, hdh]

/-- Witness for the amended C6 at the concrete run of the counterexample. -/
theorem delete_reupload_same_history_witness :
    ∃ st3, upload c6St2 c6Href "X" "unused2" "seed3" 3 = .ok (c6Href, st3) ∧
      st3.hist = c6St1.hist ∧
      histFind st3.hist c6Href = histFind c6St1.hist c6Href :=
  delete_reupload_same_history ⟨[], [], []⟩ c6Href "X" "unused" "seed1" "unused2" "seed3"
    1 3 "11111111-1111-1111-1111-111111111111" "11111111-1111-1111-1111-111111111111"
    c6Href c6St1 c6St2 (by decide) (by decide) (by decide) (by decide)

/-! ## The sync enumeration loop -/

lemma syncLoop_nil (fresh : String → String) (now : Nat) (st : CollState)
    (state : List (String × String)) (buf : List Nat) :
    syncLoop fresh now st state buf [] = (state, buf, st) := rfl

lemma syncLoop_cons (fresh : String → String) (now : Nat) (st : CollState)
    (state : List (String × String)) (buf : List Nat) (href : String)
    (item : Option String) (rest : List (String × Option String)) :
    syncLoop fresh now st state buf ((href, item) :: rest) =
      (if (dictGet state href).isSome then syncLoop fresh now st state buf rest
       else
         let r := updateHistoryEtag st href item (fresh href) now
         syncLoop fresh now r.2 (state ++ [(href, r.1)])
           (buf ++ utf8Encode (href ++ "/" ++ r.1)) rest) := rfl

/-- The loop only appends to `state`, and the hashed bytes are exactly the
concatenation of `href + "/" + history_etag` over what it appended. -/
lemma syncLoop_acc (fresh : String → String) (now : Nat) :
    ∀ (pairs : List (String × Option String)) (st : CollState)
      (state : List (String × String)) (buf : List Nat),
    ∃ delta : List (String × String),
      (syncLoop fresh now st state buf pairs).1 = state ++ delta ∧
      (syncLoop fresh now st state buf pairs).2.1 =
        buf ++ delta.flatMap (fun p => utf8Encode (p.1 ++ "/" ++ p.2)) := by
  intro pairs
  induction pairs with
  | nil =>
    intro st state buf
    exact ⟨[], by simp [syncLoop_nil], by simp [syncLoop_nil]⟩
  | cons hd rest ih =>
    intro st state buf
    rcases hd with ⟨href, item⟩
    rw [syncLoop_cons]
    by_cases hskip : (dictGet state href).isSome = true
    · rw [if_pos hskip]
      exact ih st state buf
    · rw [if_neg hskip]
      obtain ⟨delta, h1, h2⟩ := ih (updateHistoryEtag st href item (fresh href) now).2
        (state ++ [(href, (updateHistoryEtag st href item (fresh href) now).1)])
        (buf ++ utf8Encode (href ++ "/" ++ (updateHistoryEtag st href item (fresh href) now).1))
      refine ⟨(href, (updateHistoryEtag st href item (fresh href) now).1) :: delta, ?_, ?_⟩
      · rw [h1]
        simp
      · rw [h2]
        simp [List.flatMap_cons]

lemma dictGet_append (l1 l2 : List (String × String)) (k : String) :
    dictGet (l1 ++ l2) k = (dictGet l1 k).or (dictGet l2 k) := by
  induction l1 with
  | nil => simp [dictGet]
  | cons p rest ih =>
    rw [List.cons_append]
    simp only [dictGet]
    cases hq : (p.1 == k) with
    | false => simp [ih]
    | true => simp

lemma histFind_isSome_iff (hist : List HistRow) (n : String) :
    (histFind hist n).isSome = true ↔ n ∈ hist.map (fun r => r.name) := by
  unfold histFind
  rw [List.find?_isSome]
  constructor
  · rintro ⟨r, hr, hpr⟩
    exact List.mem_map.mpr ⟨r, hr, eq_of_beq hpr⟩
  · intro h
    rcases List.mem_map.mp h with ⟨r, hr, hname⟩
    exact ⟨r, hr, by simp [hname]⟩

/-- Pairs with a payload in the enumeration are exactly the live items. -/
lemma enumeratePairs_some_live (st : CollState) (x pl : String)
    (h : (x, some pl) ∈ enumeratePairs st) : x ∈ st.items.map (fun it => it.name) := by
  unfold enumeratePairs at h
  rcases List.mem_append.mp h with h | h
  · rcases List.mem_map.mp h with ⟨it, hit, heq⟩
    rcases heq with heq
    have : it.name = x := congrArg Prod.fst heq
    exact List.mem_map.mpr ⟨it, hit, this⟩
  · rcases List.mem_map.mp h with ⟨n2, _, heq⟩
    cases heq

/-- Every enumerated pair either already has a history row or is a live item
(whose etag is non-empty). -/
lemma enumeratePairs_pre (st : CollState) :
    ∀ p ∈ enumeratePairs st,
      (histFind st.hist p.1).isSome = true ∨ ∃ pl, p.2 = some pl := by
  intro p hp
  unfold enumeratePairs at hp
  rcases List.mem_append.mp hp with h | h
  · rcases List.mem_map.mp h with ⟨it, _, heq⟩
    exact Or.inr ⟨it.data, by rw [← heq]⟩
  · rcases List.mem_map.mp h with ⟨n2, hn2, heq⟩
    refine Or.inl ?_
    have hp1 : p.1 = n2 := by rw [← heq]
    rw [hp1, histFind_isSome_iff]
    unfold deletedHistoryRefs at hn2
    rcases List.mem_map.mp hn2 with ⟨r, hr, hrn⟩
    exact List.mem_map.mpr ⟨r, (List.mem_filter.mp hr).1, hrn⟩

/-- Under the schema's uniqueness constraints the enumeration has no repeated
names: live names are unique, tombstone names are unique, and the tombstone
left join excludes every live name. -/
lemma enumeratePairs_nodup (st : CollState) (hwf : WF st) :
    ((enumeratePairs st).map Prod.fst).Nodup := by
  unfold enumeratePairs
  rw [List.map_append, List.map_map, List.map_map]
  have h1 : (st.items.map (fun it => it.name)).Nodup := hwf.1
  have hdel : deletedHistoryRefs st =
      (st.hist.map (fun r => r.name)).filter
        (fun n => st.items.all (fun it => !(it.name == n))) := by
    unfold deletedHistoryRefs
    rw [List.filter_map]
    rfl
  rw [List.nodup_append]
  refine ⟨by simpa using h1, ?_, ?_⟩
  · have hcomp : (Prod.fst ∘ fun n : String => (n, (none : Option String))) = id := rfl
    rw [hcomp, List.map_id, hdel]
    exact List.Nodup.filter _ hwf.2.1
  · intro a ha hb
    have ha2 : a ∈ st.items.map (fun it => it.name) := by simpa using ha
    have hb2 : a ∈ deletedHistoryRefs st := by simpa using hb
    rw [hdel] at hb2
    have := (List.mem_filter.mp hb2).2
    rw [List.all_eq_true] at this
    rcases List.mem_map.mp ha2 with ⟨it, hit, hname⟩
    have := this it hit
    rw [hname] at this
    simp at this

/-- Names outside the processed pairs keep their history rows untouched. -/
lemma syncLoop_histFind_frame (fresh : String → String) (now : Nat) :
    ∀ (pairs : List (String × Option String)) (st : CollState)
      (state : List (String × String)) (buf : List Nat) (n : String),
    (∀ p ∈ pairs, ¬n = p.1) →
    histFind (syncLoop fresh now st state buf pairs).2.2.hist n = histFind st.hist n := by
  intro pairs
  induction pairs with
  | nil => intro st state buf n _; rfl
  | cons hd rest ih =>
    intro st state buf n hn
    rcases hd with ⟨href, item⟩
    rw [syncLoop_cons]
    by_cases hskip : (dictGet state href).isSome = true
    · rw [if_pos hskip]
      exact ih st state buf n (fun p hp => hn p (List.mem_cons_of_mem _ hp))
    · rw [if_neg hskip]
      rw [ih _ _ _ n (fun p hp => hn p (List.mem_cons_of_mem _ hp))]
      exact histFind_other_of_update st href item (fresh href) now n
        (hn (href, item) (List.mem_cons_self _ _))

/-- The table-state invariants of one whole loop run: items and snapshots are
untouched, and hist gains only rows for names that were enumerated live. -/
lemma syncLoop_post (fresh : String → String) (now : Nat) :
    ∀ (pairs : List (String × Option String)) (st : CollState)
      (state : List (String × String)) (buf : List Nat),
    (syncLoop fresh now st state buf pairs).2.2.items = st.items ∧
    (syncLoop fresh now st state buf pairs).2.2.snapshots = st.snapshots ∧
    ∃ app : List String,
      (syncLoop fresh now st state buf pairs).2.2.hist.map (fun r => r.name) =
        st.hist.map (fun r => r.name) ++ app ∧
      ∀ x ∈ app, ∃ pl, (x, some pl) ∈ pairs := by
  intro pairs
  induction pairs with
  | nil =>
    intro st state buf
    exact ⟨rfl, rfl, [], by rw [syncLoop_nil]; simp, by simp⟩
  | cons hd rest ih =>
    intro st state buf
    rcases hd with ⟨href, item⟩
    rw [syncLoop_cons]
    by_cases hskip : (dictGet state href).isSome = true
    · rw [if_pos hskip]
      obtain ⟨hi, hs, app, hnames, hmem⟩ := ih st state buf
      exact ⟨hi, hs, app, hnames,
        fun x hx => (hmem x hx).imp (fun pl hpl => List.mem_cons_of_mem _ hpl)⟩
    · rw [if_neg hskip]
      obtain ⟨hi, hs, app, hnames, hmem⟩ := ih (updateHistoryEtag st href item (fresh href) now).2
        (state ++ [(href, (updateHistoryEtag st href item (fresh href) now).1)])
        (buf ++ utf8Encode (href ++ "/" ++ (updateHistoryEtag st href item (fresh href) now).1))
      have hframe := updateHistoryEtag_frame st href item (fresh href) now
      refine ⟨by rw [hi, hframe.1], by rw [hs, hframe.2], ?_⟩
      rcases updateHistoryEtag_names st href item (fresh href) now with hcase | ⟨hcase, pl, hpl⟩
      · exact ⟨app, by rw [hnames, hcase],
          fun x hx => (hmem x hx).imp (fun pl2 hpl2 => List.mem_cons_of_mem _ hpl2)⟩
      · refine ⟨href :: app, ?_, ?_⟩
        · rw [hnames, hcase]
          simp
        · intro x hx
          rcases List.mem_cons.mp hx with hx | hx
          · subst hx
            exact ⟨pl, by rw [hpl]; exact List.mem_cons_self _ _⟩
          · exact (hmem x hx).imp (fun pl2 hpl2 => List.mem_cons_of_mem _ hpl2)

/-- The keys of the computed state are exactly the enumerated names, in
order. -/
lemma syncLoop_keys (fresh : String → String) (now : Nat) :
    ∀ (pairs : List (String × Option String)) (st : CollState)
      (state : List (String × String)) (buf : List Nat),
    (∀ p ∈ pairs, dictGet state p.1 = none) →
    (pairs.map Prod.fst).Nodup →
    (syncLoop fresh now st state buf pairs).1.map Prod.fst =
      state.map Prod.fst ++ pairs.map Prod.fst := by
  intro pairs
  induction pairs with
  | nil => intro st state buf _ _; simp [syncLoop_nil]
  | cons hd rest ih =>
    intro st state buf hnone hnd
    rcases hd with ⟨href, item⟩
    rw [syncLoop_cons]
    have hhd : dictGet state href = none := hnone (href, item) (List.mem_cons_self _ _)
    rw [if_neg (by rw [hhd]; simp)]
    have hnotin : href ∉ rest.map Prod.fst := by
      rw [List.map_cons] at hnd
      exact (List.nodup_cons.mp hnd).1
    have hrest : ∀ p ∈ rest, dictGet
        (state ++ [(href, (updateHistoryEtag st href item (fresh href) now).1)]) p.1 = none := by
      intro p hp
      rw [dictGet_snoc_ne _ _ _ _ (fun h => hnotin (by rw [h]; exact List.mem_map_of_mem Prod.fst hp))]
      exact hnone p (List.mem_cons_of_mem _ hp)
    rw [ih _ _ _ hrest (by rw [List.map_cons] at hnd; exact (List.nodup_cons.mp hnd).2)]
    simp

/-- After a run, every enumerated name has a history row whose etag matches
its enumerated payload and whose history etag is the recorded state value. -/
lemma syncLoop_establishes (fresh : String → String) (now : Nat) :
    ∀ (pairs : List (String × Option String)) (st : CollState)
      (state : List (String × String)) (buf : List Nat),
    (∀ p ∈ pairs, (histFind st.hist p.1).isSome = true ∨ ∃ pl, p.2 = some pl) →
    (pairs.map Prod.fst).Nodup →
    (∀ p ∈ pairs, dictGet state p.1 = none) →
    ∀ p ∈ pairs, ∃ row,
      histFind (syncLoop fresh now st state buf pairs).2.2.hist p.1 = some row ∧
      row.etag = dataEtag p.2 ∧
      dictGet (syncLoop fresh now st state buf pairs).1 p.1 = some row.history_etag := by
  intro pairs
  induction pairs with
  | nil => intro st state buf _ _ _ p hp; cases hp
  | cons hd rest ih =>
    intro st state buf hpre hnd hnone p hp
    rcases hd with ⟨href, item⟩
    rw [syncLoop_cons]
    have hhd : dictGet state href = none := hnone (href, item) (List.mem_cons_self _ _)
    rw [if_neg (by rw [hhd]; simp)]
    have hnotin : href ∉ rest.map Prod.fst := by
      rw [List.map_cons] at hnd
      exact (List.nodup_cons.mp hnd).1
    have hndrest : (rest.map Prod.fst).Nodup := by
      rw [List.map_cons] at hnd
      exact (List.nodup_cons.mp hnd).2
    have hrest : ∀ q ∈ rest, dictGet
        (state ++ [(href, (updateHistoryEtag st href item (fresh href) now).1)]) q.1 = none := by
      intro q hq
      rw [dictGet_snoc_ne _ _ _ _ (fun h => hnotin (by rw [h]; exact List.mem_map_of_mem Prod.fst hq))]
      exact hnone q (List.mem_cons_of_mem _ hq)
    have hprerest : ∀ q ∈ rest,
        (histFind (updateHistoryEtag st href item (fresh href) now).2.hist q.1).isSome = true ∨
        ∃ pl, q.2 = some pl := by
      intro q hq
      rcases hpre q (List.mem_cons_of_mem _ hq) with h | h
      · refine Or.inl ?_
        rw [histFind_isSome_iff] at h ⊢
        rcases updateHistoryEtag_names st href item (fresh href) now with hc | ⟨hc, _⟩
        · rw [hc]
          exact h
        · rw [hc]
          exact List.mem_append_left _ h
      · exact Or.inr h
    rcases List.mem_cons.mp hp with hph | hph
    · subst hph
      obtain ⟨row2, hfind2, hetag2, hhe2⟩ :=
        updateHistoryEtag_post st href item (fresh href) now
          (by
            rcases hpre (href, item) (List.mem_cons_self _ _) with h | ⟨pl, hpl⟩
            · exact Or.inl h
            · refine Or.inr ?_
              have hpl2 : item = some pl := hpl
              rw [hpl2]
              exact get_etag_ne_empty pl)
      refine ⟨row2, ?_, hetag2, ?_⟩
      · rw [syncLoop_histFind_frame fresh now rest _ _ _ href
          (fun q hq => fun h => hnotin (by rw [h]; exact List.mem_map_of_mem Prod.fst hq))]
        exact hfind2
      · obtain ⟨delta, hst, _⟩ := syncLoop_acc fresh now rest
          (updateHistoryEtag st href item (fresh href) now).2
          (state ++ [(href, (updateHistoryEtag st href item (fresh href) now).1)])
          (buf ++ utf8Encode (href ++ "/" ++ (updateHistoryEtag st href item (fresh href) now).1))
        rw [hst]
        have hkeys := syncLoop_keys fresh now rest
          (updateHistoryEtag st href item (fresh href) now).2
          (state ++ [(href, (updateHistoryEtag st href item (fresh href) now).1)])
          (buf ++ utf8Encode (href ++ "/" ++ (updateHistoryEtag st href item (fresh href) now).1))
          hrest hndrest
        rw [hst] at hkeys
        have hdelta : delta.map Prod.fst = rest.map Prod.fst := by
          rw [List.map_append] at hkeys
          exact List.append_cancel_left hkeys
        rw [List.append_assoc, dictGet_append]
        have h1 : dictGet ([(href, (updateHistoryEtag st href item (fresh href) now).1)] ++ delta)
            href = some (updateHistoryEtag st href item (fresh href) now).1 := by
          rw [dictGet_append]
          simp [dictGet]
        rw [hhd, h1]
        rw [hhe2]
        rfl
    · obtain ⟨row, h1, h2, h3⟩ := ih _ _ _ hprerest hndrest hrest p hph
      exact ⟨row, h1, h2, h3⟩

/-- A run over names whose history rows already match their payloads is a
no-op on the table and reproduces the stored history etags. -/
lemma syncLoop_stable (fresh : String → String) (now : Nat) :
    ∀ (pairs : List (String × Option String)) (st : CollState)
      (state : List (String × String)) (buf : List Nat),
    (∀ p ∈ pairs, ∃ row, histFind st.hist p.1 = some row ∧ row.etag = dataEtag p.2) →
    (∀ p ∈ pairs, dictGet state p.1 = none) →
    (pairs.map Prod.fst).Nodup →
    syncLoop fresh now st state buf pairs =
      (state ++ pairs.map (fun p => (p.1, histHE st.hist p.1)),
       buf ++ pairs.flatMap (fun p => utf8Encode (p.1 ++ "/" ++ histHE st.hist p.1)),
       st) := by
  intro pairs
  induction pairs with
  | nil => intro st state buf _ _ _; simp [syncLoop_nil]
  | cons hd rest ih =>
    intro st state buf hmatch hnone hnd
    rcases hd with ⟨href, item⟩
    rw [syncLoop_cons]
    have hhd : dictGet state href = none := hnone (href, item) (List.mem_cons_self _ _)
    rw [if_neg (by rw [hhd]; simp)]
    obtain ⟨row, hf, he⟩ := hmatch (href, item) (List.mem_cons_self _ _)
    have hnoop := updateHistoryEtag_noop st href item (fresh href) now row hf he.symm
    rw [hnoop]
    have hhe : histHE st.hist href = row.history_etag := by
      unfold histHE
      rw [hf]
    have hnotin : href ∉ rest.map Prod.fst := by
      rw [List.map_cons] at hnd
      exact (List.nodup_cons.mp hnd).1
    rw [ih st (state ++ [(href, row.history_etag)]) (buf ++ utf8Encode (href ++ "/" ++ row.history_etag))
      (fun q hq => hmatch q (List.mem_cons_of_mem _ hq))
      (fun q hq => by
        rw [dictGet_snoc_ne _ _ _ _ (fun h => hnotin (by rw [h]; exact List.mem_map_of_mem Prod.fst hq))]
        exact hnone q (List.mem_cons_of_mem _ hq))
      (by rw [List.map_cons] at hnd; exact (List.nodup_cons.mp hnd).2)]
    rw [List.map_cons, List.flatMap_cons, hhe]
    simp

/-- The enumeration only depends on the items and on the history names; new
history rows for live names do not add tombstones. -/
lemma enumeratePairs_invariant (st st2 : CollState) (app : List String)
    (hitems : st2.items = st.items)
    (hnames : st2.hist.map (fun r => r.name) = st.hist.map (fun r => r.name) ++ app)
    (happ : ∀ x ∈ app, x ∈ st.items.map (fun it => it.name)) :
    enumeratePairs st2 = enumeratePairs st := by
  unfold enumeratePairs
  rw [hitems]
  have hdel : ∀ s : CollState, deletedHistoryRefs s =
      (s.hist.map (fun r => r.name)).filter
        (fun n => s.items.all (fun it => !(it.name == n))) := by
    intro s
    unfold deletedHistoryRefs
    rw [List.filter_map]
    rfl
  have : deletedHistoryRefs st2 = deletedHistoryRefs st := by
    rw [hdel, hdel, hitems, hnames, List.filter_append]
    have happ2 : app.filter (fun n => st.items.all (fun it => !(it.name == n))) = [] := by
      rw [List.filter_eq_nil_iff]
      intro x hx
      have hx2 := happ x hx
      rcases List.mem_map.mp hx2 with ⟨it, hit, hname⟩
      simp only [List.all_eq_true, Bool.not_eq_true']
      intro hall
      have := hall it hit
      rw [hname] at this
      simp at this
    rw [happ2, List.append_nil]
  rw [this]

/-- A successful `dict.get` comes from a stored pair. -/
lemma dictGet_some_mem (d : List (String × String)) (k v : String)
    (h : dictGet d k = some v) : (k, v) ∈ d := by
  induction d with
  | nil => cases h
  | cons p rest ih =>
    simp only [dictGet] at h
    by_cases hq : (p.1 == k) = true
    · rw [if_pos hq] at h
      have hk : p.1 = k := eq_of_beq hq
      have hv : p.2 = v := Option.some.inj h
      have hp : p = (k, v) := by rw [← hk, ← hv]
      rw [← hp]
      exact List.mem_cons_self _ _
    · rw [if_neg hq] at h
      exact List.mem_cons_of_mem _ (ih h)

/-- The enumeration reads only the item and history tables. -/
lemma enumeratePairs_congr (st st2 : CollState)
    (hi : st2.items = st.items) (hh : st2.hist = st.hist) :
    enumeratePairs st2 = enumeratePairs st := by
  unfold enumeratePairs deletedHistoryRefs
  rw [hi, hh]

/-- The two change loops report exactly the names whose lookup differs
between the two mappings. -/
lemma syncChanges_iff (state old : List (String × String))
    (hnd : (state.map Prod.fst).Nodup) (n : String) :
    n ∈ syncChanges state old ↔ ¬dictGet state n = dictGet old n := by
  unfold syncChanges
  rw [List.mem_append]
  constructor
  · rintro (h | h)
    · rcases List.mem_map.mp h with ⟨p, hp, hpn⟩
      have hpf := List.mem_filter.mp hp
      have hget : dictGet state p.1 = some p.2 := dictGet_of_mem_nodup state hnd p hpf.1
      have hcond := hpf.2
      simp only [Bool.not_eq_true'] at hcond
      rw [← hpn, hget]
      intro heq
      rw [← heq] at hcond
      simp at hcond
    · rcases List.mem_map.mp h with ⟨p, hp, hpn⟩
      have hpf := List.mem_filter.mp hp
      have hnone : dictGet state p.1 = none := by
        have := hpf.2
        simpa [Option.isNone_iff_eq_none] using this
      have hsome : (dictGet old p.1).isSome = true :=
        (dictGet_isSome_iff old p.1).mpr (List.mem_map_of_mem Prod.fst hpf.1)
      rw [← hpn, hnone]
      intro heq
      rw [← heq] at hsome
      simp at hsome
  · intro hne
    rcases hstate : dictGet state n with _ | v
    · rcases hold : dictGet old n with _ | w
      · exact absurd (by rw [hstate, hold]) hne
      · right
        have hmem : (n, w) ∈ old := dictGet_some_mem old n w hold
        refine List.mem_map.mpr ⟨(n, w), List.mem_filter.mpr ⟨hmem, ?_⟩, rfl⟩
        simp [hstate]
    · left
      have hmem : (n, v) ∈ state := dictGet_some_mem state n v hstate
      refine List.mem_map.mpr ⟨(n, v), List.mem_filter.mpr ⟨hmem, ?_⟩, rfl⟩
      have hvne : ¬some v = dictGet old n := by rw [← hstate]; exact hne
      simp only [Bool.not_eq_true']
      exact beq_eq_false_iff_ne.mpr hvne

/-- `syncLoop_post` at the top-level call of `_sync`. -/
lemma syncNewState_post (st : CollState) (fresh : String → String) (now : Nat) :
    (syncNewState st fresh now).2.2.items = st.items ∧
    (syncNewState st fresh now).2.2.snapshots = st.snapshots ∧
    ∃ app : List String,
      (syncNewState st fresh now).2.2.hist.map (fun r => r.name) =
        st.hist.map (fun r => r.name) ++ app ∧
      ∀ x ∈ app, ∃ pl, (x, some pl) ∈ enumeratePairs st :=
  syncLoop_post fresh now (enumeratePairs st) st [] []

/-- `syncLoop_keys` at the top-level call of `_sync`. -/
lemma syncNewState_keys (st : CollState) (fresh : String → String) (now : Nat)
    (hwf : WF st) :
    ((syncNewState st fresh now).1).map Prod.fst = (enumeratePairs st).map Prod.fst :=
  syncLoop_keys fresh now (enumeratePairs st) st [] [] (fun _ _ => rfl)
    (enumeratePairs_nodup st hwf)

/-- `syncLoop_establishes` at the top-level call of `_sync`. -/
lemma syncNewState_establishes (st : CollState) (fresh : String → String) (now : Nat)
    (hwf : WF st) :
    ∀ p ∈ enumeratePairs st, ∃ row,
      histFind (syncNewState st fresh now).2.2.hist p.1 = some row ∧
      row.etag = dataEtag p.2 ∧
      dictGet (syncNewState st fresh now).1 p.1 = some row.history_etag :=
  syncLoop_establishes fresh now (enumeratePairs st) st [] []
    (enumeratePairs_pre st) (enumeratePairs_nodup st hwf) (fun _ _ => rfl)

/-- The computed state maps each enumerated name to its stored
`history_etag` after the loop. -/
lemma syncNewState_state_eq (st : CollState) (fresh : String → String) (now : Nat)
    (hwf : WF st) :
    (syncNewState st fresh now).1 =
      (enumeratePairs st).map
        (fun p => (p.1, histHE (syncNewState st fresh now).2.2.hist p.1)) := by
  apply dict_ext
  · rw [syncNewState_keys st fresh now hwf, List.map_map]
    rfl
  · rw [syncNewState_keys st fresh now hwf]
    exact enumeratePairs_nodup st hwf
  · intro k hk
    rw [syncNewState_keys st fresh now hwf] at hk
    rcases List.mem_map.mp hk with ⟨q, hq, hqk⟩
    subst hqk
    obtain ⟨row, hfind, hetag, hget⟩ := syncNewState_establishes st fresh now hwf q hq
    rw [hget]
    have hndR : (((enumeratePairs st).map
        (fun p => (p.1, histHE (syncNewState st fresh now).2.2.hist p.1))).map
          Prod.fst).Nodup := by
      rw [List.map_map]
      exact enumeratePairs_nodup st hwf
    have hmem : (q.1, histHE (syncNewState st fresh now).2.2.hist q.1) ∈
        (enumeratePairs st).map
          (fun p => (p.1, histHE (syncNewState st fresh now).2.2.hist p.1)) :=
      List.mem_map.mpr ⟨q, hq, rfl⟩
    have h2 := dictGet_of_mem_nodup _ hndR _ hmem
    rw [h2]
    unfold histHE
    rw [hfind]

/-- The hashed bytes are the in-order concatenation over the computed
state. -/
lemma syncNewState_buf (st : CollState) (fresh : String → String) (now : Nat) :
    (syncNewState st fresh now).2.1 =
      ((syncNewState st fresh now).1).flatMap
        (fun p => utf8Encode (p.1 ++ "/" ++ p.2)) := by
  obtain ⟨delta, h1, h2⟩ := syncLoop_acc fresh now (enumeratePairs st) st [] []
  have h1' : (syncNewState st fresh now).1 = delta := by simpa using h1
  have h2' : (syncNewState st fresh now).2.1 =
      delta.flatMap (fun p => utf8Encode (p.1 ++ "/" ++ p.2)) := by simpa using h2
  rw [h1', h2']

/-- Re-running the state computation on the table the first run produced
(with any seeds and timestamps, and whatever the snapshots are) reproduces
the same state and hashed bytes and leaves the table unchanged. -/
lemma syncNewState_rerun (st : CollState) (hwf : WF st) (fresh : String → String)
    (now : Nat) (fresh2 : String → String) (now2 : Nat) (st' : CollState)
    (hi : st'.items = (syncNewState st fresh now).2.2.items)
    (hh : st'.hist = (syncNewState st fresh now).2.2.hist) :
    syncNewState st' fresh2 now2 =
      ((syncNewState st fresh now).1, (syncNewState st fresh now).2.1, st') := by
  obtain ⟨hi0, hs0, app, hnames, hmem⟩ := syncNewState_post st fresh now
  have henum1 : enumeratePairs (syncNewState st fresh now).2.2 = enumeratePairs st := by
    apply enumeratePairs_invariant st _ app hi0 hnames
    intro x hx
    obtain ⟨pl, hpl⟩ := hmem x hx
    exact enumeratePairs_some_live st x pl hpl
  have henum' : enumeratePairs st' = enumeratePairs st := by
    rw [enumeratePairs_congr (syncNewState st fresh now).2.2 st' hi hh, henum1]
  have hmatch' : ∀ p ∈ enumeratePairs st, ∃ row,
      histFind st'.hist p.1 = some row ∧ row.etag = dataEtag p.2 := by
    intro p hp
    obtain ⟨row, h1, h2, _⟩ := syncNewState_establishes st fresh now hwf p hp
    exact ⟨row, by rw [hh]; exact h1, h2⟩
  have hstable := syncLoop_stable fresh2 now2 (enumeratePairs st) st' [] []
    hmatch' (fun _ _ => rfl) (enumeratePairs_nodup st hwf)
  have hmain : syncNewState st' fresh2 now2 =
      ((enumeratePairs st).map (fun p => (p.1, histHE st'.hist p.1)),
       (enumeratePairs st).flatMap (fun p => utf8Encode (p.1 ++ "/" ++ histHE st'.hist p.1)),
       st') := by
    unfold syncNewState
    rw [henum', hstable]
    simp
  rw [hmain, hh]
  have hstate : (enumeratePairs st).map
      (fun p => (p.1, histHE (syncNewState st fresh now).2.2.hist p.1)) =
      (syncNewState st fresh now).1 := (syncNewState_state_eq st fresh now hwf).symm
  have hbuf : (enumeratePairs st).flatMap
      (fun p => utf8Encode (p.1 ++ "/" ++ histHE (syncNewState st fresh now).2.2.hist p.1)) =
      (syncNewState st fresh now).2.1 := by
    rw [syncNewState_buf st fresh now, syncNewState_state_eq st fresh now hwf,
      List.flatMap_map]
  rw [hstate, hbuf]

/-- A full token (prefix plus suffix) is never the empty string. -/
lemma tokenPre_append_ne (s : String) : ((tokenPre ++ s) != "") = true := by
  rw [bne_iff_ne]
  intro h
  have h2 : (tokenPre ++ s).data = "".data := congrArg String.data h
  rw [String.data_append] at h2
  have h3 := List.append_eq_nil.mp h2
  have h4 : tokenPre.data = [] := h3.1
  exact absurd h4 (by decide)

/-- `pySlice_pre` with the length written as `String.length`. -/
lemma pySlice_pre2 (s : String) : pySlice (tokenPre ++ s) tokenPre.length = s :=
  pySlice_pre s

/-- Inversion of a successful `_sync` call: the returned token is the
prefix plus the computed digest, the returned table has the post-loop items
and history, and the change set is empty on an unchanged token suffix and
the two-loop diff against the old snapshot otherwise. -/
lemma sync_ok_main (st : CollState) (fresh : String → String) (now : Nat)
    (tok t : String) (ch : List String) (st2 : CollState)
    (h : sync st fresh now tok = .ok (t, ch, st2)) :
    t = tokenPre ++ sha256HexBytes (syncNewState st fresh now).2.1 ∧
    st2.items = (syncNewState st fresh now).2.2.items ∧
    st2.hist = (syncNewState st fresh now).2.2.hist ∧
    (¬sha256HexBytes (syncNewState st fresh now).2.1 =
        (if tok != "" then pySlice tok tokenPre.toList.length else "") →
      ch = syncChanges (syncNewState st fresh now).1 (oldStateOf st tok)) ∧
    (sha256HexBytes (syncNewState st fresh now).2.1 =
        (if tok != "" then pySlice tok tokenPre.toList.length else "") →
      ch = [] ∧ st2 = (syncNewState st fresh now).2.2) := by
  simp only [sync] at h
  by_cases h0 : tok = ""
  · subst h0
    simp only [bne_self_eq_false, Bool.false_and, Bool.false_eq_true, if_false] at h
    have hbad : (sha256HexBytes (syncNewState st fresh now).2.1 == "") = false :=
      beq_eq_false_iff_ne.mpr (sha256HexBytes_ne_empty _)
    rw [if_neg (by rw [hbad]; simp)] at h
    split at h <;>
      (simp only [Except.ok.injEq, Prod.mk.injEq] at h
       exact ⟨h.1.symm, by rw [← h.2.2], by rw [← h.2.2],
         fun _ => by rw [← h.2.1]; rfl, fun he => absurd he (sha256HexBytes_ne_empty _)⟩)
  · have h0' : (tok != "") = true := bne_iff_ne.mpr h0
    simp only [h0', eq_self_iff_true, if_true, Bool.true_and] at h
    cases hsw : pyStartsWith tok tokenPre with
    | false =>
      simp only [hsw, Bool.not_false, eq_self_iff_true, if_true] at h
      exact Except.noConfusion h
    | true =>
      simp only [hsw, Bool.not_true, Bool.false_eq_true, if_false] at h
      cases hck : check_token_name (pySlice tok tokenPre.toList.length) with
      | false =>
        simp only [hck, Bool.not_false, eq_self_iff_true, if_true] at h
        exact Except.noConfusion h
      | true =>
        simp only [hck, Bool.not_true, Bool.false_eq_true, if_false] at h
        by_cases hbeq : (sha256HexBytes (syncNewState st fresh now).2.1 ==
            pySlice tok tokenPre.toList.length) = true
        · rw [if_pos hbeq] at h
          simp only [Except.ok.injEq, Prod.mk.injEq] at h
          refine ⟨h.1.symm, by rw [← h.2.2], by rw [← h.2.2],
            fun hne => absurd (by rw [if_pos h0']; exact eq_of_beq hbeq) hne,
            fun _ => ⟨h.2.1.symm, h.2.2.symm⟩⟩
        · rw [if_neg hbeq] at h
          have hotn : (pySlice tok tokenPre.toList.length != "") = true := by
            rw [bne_iff_ne]
            intro he
            rw [he] at hck
            exact absurd hck (by decide)
          rw [if_pos hotn] at h
          have hsnap : (syncNewState st fresh now).2.2.snapshots = st.snapshots :=
            (syncNewState_post st fresh now).2.1
          rw [hsnap] at h
          have hcontra : ∀ he : sha256HexBytes (syncNewState st fresh now).2.1 =
              (if tok != "" then pySlice tok tokenPre.toList.length else ""),
              ch = [] ∧ st2 = (syncNewState st fresh now).2.2 := by
            intro he
            rw [if_pos h0'] at he
            exact absurd (beq_iff_eq.mpr he) hbeq
          split at h
          · rename_i s hf
            have hold : oldStateOf st tok = s.2 := by
              unfold oldStateOf snapshotLookup
              rw [if_neg h0, hf]
              rfl
            split at h <;>
              (simp only [Except.ok.injEq, Prod.mk.injEq] at h
               exact ⟨h.1.symm, by rw [← h.2.2], by rw [← h.2.2],
                 fun _ => by rw [← h.2.1, hold], hcontra⟩)
          · rename_i hf
            have hold : oldStateOf st tok = [] := by
              unfold oldStateOf snapshotLookup
              rw [if_neg h0, hf]
              rfl
            split at h <;>
              (simp only [Except.ok.injEq, Prod.mk.injEq] at h
               exact ⟨h.1.symm, by rw [← h.2.2], by rw [← h.2.2],
                 fun _ => by rw [← h.2.1, hold], hcontra⟩)

/-- **C1**.  For a sync call that returns successfully with a prior token
whose suffix differs from the newly computed token suffix, the returned
change set is exactly the symmetric difference keyed by name between the old
snapshot mapping and the newly computed `name -> history_etag` mapping: a
name is reported iff its `history_etag` differs between the two mappings,
names present on only one side included; with no caller token, or a token
whose suffix matches no stored snapshot of this collection, the old mapping
is empty -- and then every current name is reported. -/
theorem sync_diff_symmetric_difference (st : CollState) (fresh : String → String)
    (now : Nat) (tok t : String) (ch : List String) (st2 : CollState)
    (hwf : WF st)
    (h : sync st fresh now tok = .ok (t, ch, st2))
    (hne : ¬syncTokenName st fresh now =
      (if tok != "" then pySlice tok tokenPre.toList.length else "")) :
    (∀ n, n ∈ ch ↔
      ¬dictGet (syncNewState st fresh now).1 n = dictGet (oldStateOf st tok) n)
  ∧ (tok = "" ∨ snapshotLookup st (pySlice tok tokenPre.toList.length) = none →
      oldStateOf st tok = [])
  ∧ (oldStateOf st tok = [] →
      ∀ n ∈ ((syncNewState st fresh now).1).map Prod.fst, n ∈ ch) := by
  have hne' : ¬sha256HexBytes (syncNewState st fresh now).2.1 =
      (if tok != "" then pySlice tok tokenPre.toList.length else "") := hne
  have hch := (sync_ok_main st fresh now tok t ch st2 h).2.2.2.1 hne'
  have hnd : (((syncNewState st fresh now).1).map Prod.fst).Nodup := by
    rw [syncNewState_keys st fresh now hwf]
    exact enumeratePairs_nodup st hwf
  have hiff : ∀ n, n ∈ ch ↔
      ¬dictGet (syncNewState st fresh now).1 n = dictGet (oldStateOf st tok) n := by
    intro n
    rw [hch]
    exact syncChanges_iff (syncNewState st fresh now).1 (oldStateOf st tok) hnd n
  refine ⟨hiff, ?_, ?_⟩
  · rintro (he | hnone)
    · rw [he]; rfl
    · unfold oldStateOf
      split
      · rfl
      · rw [hnone]
        rfl
  · intro hold n hn
    rw [hiff n, hold]
    have hsome : (dictGet (syncNewState st fresh now).1 n).isSome = true :=
      (dictGet_isSome_iff _ n).mpr hn
    rcases hd : dictGet (syncNewState st fresh now).1 n with _ | v
    · rw [hd] at hsome; simp at hsome
    · simp [hd, dictGet]

/-- **C5**.  First part: a sync call that returns successfully while the
newly computed token suffix equals the caller-supplied token suffix returns
that token with an empty change set and leaves the stored
`collection_state` snapshots unchanged.  Second part: two consecutive sync
calls with no intervening writes return the same token, and the second
returns an empty change set and the unchanged state. -/
theorem sync_unchanged_token_early_return :
    (∀ (st : CollState) (fresh : String → String) (now : Nat) (old_token t : String)
       (ch : List String) (st2 : CollState),
       sync st fresh now old_token = .ok (t, ch, st2) →
       syncTokenName st fresh now =
         (if old_token != "" then pySlice old_token tokenPre.toList.length else "") →
       t = tokenPre ++ syncTokenName st fresh now ∧ ch = [] ∧
         st2.snapshots = st.snapshots)
  ∧ (∀ (st : CollState) (fresh : String → String) (now : Nat)
       (fresh2 : String → String) (now2 : Nat) (tok0 t : String)
       (ch : List String) (stR : CollState),
       WF st →
       sync st fresh now tok0 = .ok (t, ch, stR) →
       sync stR fresh2 now2 t = .ok (t, [], stR)) := by
  constructor
  · intro st fresh now old_token t ch st2 h hmatch
    obtain ⟨ht, _, _, _, hearly⟩ := sync_ok_main st fresh now old_token t ch st2 h
    obtain ⟨hch, hst⟩ := hearly hmatch
    refine ⟨ht, hch, ?_⟩
    rw [hst]
    exact (syncNewState_post st fresh now).2.1
  · intro st fresh now fresh2 now2 tok0 t ch stR hwf h
    obtain ⟨ht, hitems, hhist, _, _⟩ := sync_ok_main st fresh now tok0 t ch stR h
    subst ht
    have hrerun := syncNewState_rerun st hwf fresh now fresh2 now2 stR hitems hhist
    simp only [sync, hrerun, tokenPre_append_ne, pyStartsWith_pre, pySlice_pre,
      pySlice_pre2, check_token_name_sha, Bool.not_true, Bool.and_false,
      Bool.false_eq_true, if_false, eq_self_iff_true, if_true, Bool.true_and,
      beq_self_eq_true]

/-- Witness for C1: the one-tombstone collection synced with no prior
token reports its one name against the empty old mapping. -/
theorem sync_diff_symmetric_difference_witness :
    (∀ n, n ∈ w5Ch ↔
      ¬dictGet (syncNewState w5St w5F 0).1 n = dictGet (oldStateOf w5St "") n)
  ∧ (("" : String) = "" ∨ snapshotLookup w5St (pySlice "" tokenPre.toList.length) = none →
      oldStateOf w5St "" = [])
  ∧ (oldStateOf w5St "" = [] →
      ∀ n ∈ ((syncNewState w5St w5F 0).1).map Prod.fst, n ∈ w5Ch) :=
  sync_diff_symmetric_difference w5St w5F 0 "" w5T w5Ch w5St1 (by decide)
    (by rfl) (by decide)

/-- Witness for C5: re-syncing the one-tombstone collection with the token
the first sync returned yields the same token, no changes and the same
state. -/
theorem sync_unchanged_token_early_return_witness :
    sync w5St1 w5F 1 w5T = .ok (w5T, [], w5St1) :=
  sync_unchanged_token_early_return.2 w5St w5F 0 w5F 1 "" w5T w5Ch w5St1
    (by decide) (by rfl)

/-! ## Claim C3: the token is order-dependent -/

/-- **C3 counterexample**.  Two collection states carrying exactly the same
history rows (a permutation — same set of `(name, etag, history_etag,
modified_at)` rows) and the same (empty) item table yield different sync
token suffixes when the backing store enumerates the rows in different
orders: the claimed order-independence is false. -/
theorem sync_token_order_counterexample :
    c3StA.hist.Perm c3StB.hist ∧ c3StA.items = c3StB.items ∧
    (syncTokenName c3StA (fun _ => "") 0 == syncTokenName c3StB (fun _ => "") 0)
      = false := by
  refine ⟨?_, rfl, by decide⟩
  show ([⟨"a", "", "h1", 0⟩, ⟨"b", "", "h2", 0⟩] : List HistRow).Perm
    [⟨"b", "", "h2", 0⟩, ⟨"a", "", "h1", 0⟩]
  exact List.Perm.swap _ _ _

/-- **C3 amended**.  The token suffix is the SHA-256 hex digest of the
concatenation, in enumeration order, of `name + "/" + history_etag` over the
computed state: it is a deterministic function of the enumerated
`(name, history_etag)` sequence — two executions that enumerate the same
pairs in the same order produce the same suffix — but not of the underlying
set alone (the counterexample shows different orders can give different
suffixes). -/
theorem sync_token_deterministic_in_order (st : CollState) (fresh : String → String)
    (now : Nat) :
    syncTokenName st fresh now =
      sha256HexBytes (((syncNewState st fresh now).1).flatMap
        (fun p => utf8Encode (p.1 ++ "/" ++ p.2)))
  ∧ ∀ (st2 : CollState) (fresh2 : String → String) (now2 : Nat),
      (syncNewState st2 fresh2 now2).1 = (syncNewState st fresh now).1 →
      syncTokenName st2 fresh2 now2 = syncTokenName st fresh now := by
  have key : ∀ (s : CollState) (f : String → String) (n : Nat),
      syncTokenName s f n =
        sha256HexBytes (((syncNewState s f n).1).flatMap
          (fun p => utf8Encode (p.1 ++ "/" ++ p.2))) := by
    intro s f n
    obtain ⟨delta, h1, h2⟩ := syncLoop_acc f n (enumeratePairs s) s [] []
    unfold syncTokenName syncNewState
    rw [h1, h2]
    simp
  refine ⟨key st fresh now, ?_⟩
  intro st2 fresh2 now2 heq
  rw [key st2 fresh2 now2, key st fresh now, heq]

/-! ## Claim C9: depth limit and path walk of collection creation -/

/-- **C9**.  `_create_collection` raises `ValueError("Invalid path")` for
every path with more than two segments below the root — the error is raised
before any insert, so nothing is created (the transaction carries no state) —
and for every path of at most two segments it walks the (effective) segments
from the root, finding or creating each one with the preceding segment's
collection as parent and returning the last one. -/
theorem create_collection_depth_and_walk (store : Store) (fresh : Nat → String)
    (k : Nat) (href : String) :
    (2 < (split_path href).length →
      createCollection store fresh k href = .error "Invalid path")
  ∧ ((split_path href).length ≤ 2 →
      ∃ cid rows2 k2,
        createCollection store fresh k href =
          .ok (cid, String.intercalate "/" (effPath fresh k href), ⟨rows2, store.rootId⟩, k2) ∧
        (∃ newRows, rows2 = store.rows ++ newRows) ∧
        chainProp rows2 store.rootId (effPath fresh k href) cid) := by
  constructor
  · intro hlen
    unfold createCollection
    rw [if_neg (by simp; omega), if_pos (by simpa using hlen)]
  · intro hlen
    rcases hsp : split_path href with _ | ⟨p, _ | ⟨q, _ | ⟨s, rest⟩⟩⟩
    · have heff : effPath fresh k href = [] := by simp [effPath, hsp]
      refine ⟨store.rootId, store.rows, k, ?_, ⟨[], by simp⟩, by rw [heff]; rfl⟩
      rw [heff]
      simp only [createCollection, hsp]
      rw [if_neg (by simp), if_neg (by simp), walkCreate_nil]
    · have heff : effPath fresh k href = [p] := by simp [effPath, hsp]
      obtain ⟨r1, rows2, k2, hw, hnew, hm, hpar, hname⟩ :=
        walkCreate_one fresh ([p].getD 1 "") store.rows k store.rootId p
      refine ⟨r1.id, rows2, k2, ?_, hnew, by rw [heff]; exact ⟨r1, hm, hpar, hname, rfl⟩⟩
      rw [heff]
      simp only [createCollection, hsp]
      rw [if_neg (by simp), if_neg (by simp), hw]
    · by_cases hv : is_valid_uuid q = true
      · have heff : effPath fresh k href = [p, q] := by simp [effPath, hsp, hv]
        obtain ⟨r1, r2, rows2, k2, hw, hnew, hm1, hm2, hpar1, hname1, hpar2, hname2⟩ :=
          walkCreate_two fresh q store.rows k store.rootId p q
        refine ⟨r2.id, rows2, k2, ?_, hnew,
          by rw [heff]; exact ⟨r1, hm1, r2, hm2, hpar1, hname1, hpar2, hname2, rfl⟩⟩
        rw [heff]
        simp [createCollection, hsp, hv, hw]
      · have hv2 : is_valid_uuid q = false := by simpa using hv
        have heff : effPath fresh k href = [p, fresh k] := by simp [effPath, hsp, hv2]
        obtain ⟨r1, r2, rows2, k2, hw, hnew, hm1, hm2, hpar1, hname1, hpar2, hname2⟩ :=
          walkCreate_two fresh (fresh k) store.rows (k + 1) store.rootId p (fresh k)
        refine ⟨r2.id, rows2, k2, ?_, hnew,
          by rw [heff]; exact ⟨r1, hm1, r2, hm2, hpar1, hname1, hpar2, hname2, rfl⟩⟩
        rw [heff]
        simp [createCollection, hsp, hv2, hw]
    · exfalso
      rw [hsp] at hlen
      simp at hlen

/-! ## Claim C10: silent leaf-name substitution -/

lemma intercalate_pair (a b : String) : String.intercalate "/" [a, b] = a ++ "/" ++ b := rfl

/-- **C10**.  For every `create_collection` call with a two-segment path whose
second segment is not a valid UUID string, the core silently replaces that
segment with a freshly generated UUID string before walking: the returned
collection's path is `first-segment/fresh-uuid`, the collection it denotes is
a row named by the generated UUID — not the caller-supplied leaf name, which
(being an invalid UUID while the generated name is a valid one) necessarily
differs. -/
theorem create_collection_substitutes_leaf (store : Store) (fresh : Nat → String)
    (k : Nat) (href p1 p2 : String)
    (hsplit : split_path href = [p1, p2])
    (hinvalid : is_valid_uuid p2 = false)
    (hfresh : is_valid_uuid (fresh k) = true) :
    ∃ cid rows2 k2,
      createCollection store fresh k href =
        .ok (cid, p1 ++ "/" ++ fresh k, ⟨rows2, store.rootId⟩, k2) ∧
      (∃ r ∈ rows2, r.id = cid ∧ r.name = fresh k) ∧
      ¬fresh k = p2 := by
  obtain ⟨r1, r2, rows2, k2, hw, _, _, hm2, _, _, _, hname2⟩ :=
    walkCreate_two fresh (fresh k) store.rows (k + 1) store.rootId p1 (fresh k)
  refine ⟨r2.id, rows2, k2, ?_, ⟨r2, hm2, rfl, hname2⟩, ?_⟩
  · rw [← intercalate_pair]
    simp [createCollection, hsplit, hinvalid, hw]
  · intro he
    rw [he, hinvalid] at hfresh
    cases hfresh

/-- Witness for C10: creating `"/alice/foo"` on an empty store with a
concrete fresh UUID yields a collection named by the fresh UUID, not
`"foo"`. -/
theorem create_collection_substitutes_leaf_witness :
    ∃ cid rows2 k2,
      createCollection ⟨[], "root"⟩ (fun _ => "33333333-3333-3333-3333-333333333333") 0
          "/alice/foo" =
        .ok (cid, "alice" ++ "/" ++ "33333333-3333-3333-3333-333333333333",
          ⟨rows2, "root"⟩, k2) ∧
      (∃ r ∈ rows2, r.id = cid ∧ r.name = "33333333-3333-3333-3333-333333333333") ∧
      ¬"33333333-3333-3333-3333-333333333333" = "foo" :=
  create_collection_substitutes_leaf ⟨[], "root"⟩
    (fun _ => "33333333-3333-3333-3333-333333333333") 0 "/alice/foo" "alice" "foo"
    (by decide) (by decide) (by decide)

end RadicaleSql
